import Mathlib

/-!
# Distributed CSR sparse matrix product (`sparsemat_mul.cpp`)

A shallow embedding of the partition / scatter / multiply / gather pipeline of
`src/sparsemat_mul.cpp`.

Modelling conventions.

* `size` is the number of MPI processes (the worker count), `rank` a process id.
  The coordinator is rank 0.
* A `vector<int>` that holds row pointers, counts or displacements is a `List Nat`
  (or a function of the process index when the vector is indexed by rank);
  column indices keep their sign and are `Int`.
* A `double` is an exact rational (`ℚ`); the threshold `1e-12` is `1 / 10 ^ 12`.
* Integer overflow is not modelled: every count, offset and index is assumed to fit an `int`.
* `v[i]` is `v.getD i 0`.
* An `unordered_map<int, double>` is an association list with distinct keys, listed in
  order of first insertion.
* The input stream is the list of its whitespace-separated numerals; a read that finds no
  numeral, or no integer where an `int` is read, fails (`none`).
* The collectives `MPI_Scatterv` and `MPI_Gatherv` are modelled with their count and
  displacement arguments: a scatter hands rank `p` the `counts p` elements of the send
  buffer that start at `displs p`; a gather writes the `counts p` elements sent by
  rank `p` into the receive buffer starting at `displs p`.
-/

namespace SparseMatMul

/-- The three parallel containers of a CSR matrix. -/
structure CSR where
  rowptr : List Nat
  colidx : List Int
  values : List ℚ
deriving DecidableEq

/-! ## Collectives -/

/-- `MPI_Scatterv(sendbuf, sendcounts, displs, ..)` as seen by the receiving `rank`. -/
def scatterv {α : Type} (sendbuf : List α) (sendcounts displs : Nat → Nat) (rank : Nat) : List α :=
  (sendbuf.drop (displs rank)).take (sendcounts rank)

/-- Store `data` into `buf` at positions `pos, pos+1, ..` (element-wise array writes). -/
def writeAt {α : Type} : List α → Nat → List α → List α
  | buf, _, [] => buf
  | buf, pos, x :: xs => writeAt (buf.set pos x) (pos + 1) xs

/-- `MPI_Gatherv(sendbuf, .., recvbuf, recvcounts, displs, ..)` at the root: the block of
rank `p` (its first `recvcounts p` elements) is stored at displacement `displs p`. -/
def gatherv {α : Type} (recvbuf : List α) (sendbuf : Nat → List α) (recvcounts displs : Nat → Nat)
    (size : Nat) : List α :=
  (List.range size).foldl
    (fun buf p => writeAt buf (displs p) ((sendbuf p).take (recvcounts p))) recvbuf

/-! ## Row partition (lines 108-135) -/

/-- `int rowsperproc = N / size;` -/
def rowsperproc (N size : Nat) : Nat := N / size

/-- `int rem = N % size;` -/
def rem (N size : Nat) : Nat := N % size

/-- `rowcount[i] = rowsperproc + (i < rem ? 1 : 0);` -/
def rowcount (N size i : Nat) : Nat :=
  rowsperproc N size + (if i < rem N size then 1 else 0)

/-- `rowoffset[i] = (i == 0) ? 0 : rowoffset[i-1] + rowcount[i-1];` -/
def rowoffset (N size : Nat) : Nat → Nat
  | 0 => 0
  | i + 1 => rowoffset N size i + rowcount N size i

/-- `sendcount[i]`: set only under the guard `end_row > start_row`, else the initial 0. -/
def sendcount (A_rowptr : List Nat) (N size i : Nat) : Nat :=
  let start_row := rowoffset N size i
  let end_row := start_row + rowcount N size i
  if end_row > start_row then A_rowptr.getD end_row 0 - A_rowptr.getD start_row 0 else 0

/-- `offset[i]`: set only under the guard `end_row > start_row`, else the initial 0. -/
def offset (A_rowptr : List Nat) (N size i : Nat) : Nat :=
  let start_row := rowoffset N size i
  let end_row := start_row + rowcount N size i
  if end_row > start_row then A_rowptr.getD start_row 0 else 0

/-! ## Scatter of A (lines 137-191) -/

/-- `local_A_values` at `rank` after the `MPI_Scatterv` of line 146. -/
def local_A_values (A : CSR) (N size rank : Nat) : List ℚ :=
  scatterv A.values (sendcount A.rowptr N size) (offset A.rowptr N size) rank

/-- `local_A_colidx` at `rank` after the `MPI_Scatterv` of line 147. -/
def local_A_colidx (A : CSR) (N size rank : Nat) : List Int :=
  scatterv A.colidx (sendcount A.rowptr N size) (offset A.rowptr N size) rank

/-- `local_rowptrs[proc]` (lines 157-167): empty when `proc` has no rows, else a leading 0
followed by `A_rowptr[start_row + i] - A_rowptr[start_row]` for `i = 1 .. num_rows`. -/
def local_rowptrs (A_rowptr : List Nat) (N size proc : Nat) : List Nat :=
  let start_row := rowoffset N size proc
  let num_rows := rowcount N size proc
  if num_rows > 0 then
    0 :: (List.range' 1 num_rows).map
      (fun i => A_rowptr.getD (start_row + i) 0 - A_rowptr.getD start_row 0)
  else []

/-- `rowptr_sendcount[proc]` (line 169). -/
def rowptr_sendcount (A_rowptr : List Nat) (N size proc : Nat) : Nat :=
  if rowcount N size proc > 0 then (local_rowptrs A_rowptr N size proc).length else 0

/-- `rowptr_offset[proc]` (line 170), left 0 for a process without rows. -/
def rowptr_offset (A_rowptr : List Nat) (N size : Nat) : Nat → Nat
  | 0 => 0
  | proc + 1 =>
    if rowcount N size (proc + 1) > 0 then
      rowptr_offset A_rowptr N size proc + rowptr_sendcount A_rowptr N size proc
    else 0

/-- `all_local_rowptrs` (lines 173-176). -/
def all_local_rowptrs (A_rowptr : List Nat) (N size : Nat) : List Nat :=
  (List.range size).foldl (fun acc proc => acc ++ local_rowptrs A_rowptr N size proc) []

/-- `local_A_rowptr` at `rank` after the `MPI_Scatterv` of lines 184/190. -/
def local_A_rowptr (A : CSR) (N size rank : Nat) : List Nat :=
  scatterv (all_local_rowptrs A.rowptr N size) (rowptr_sendcount A.rowptr N size)
    (rowptr_offset A.rowptr N size) rank

/-! ## Local multiply (lines 197-247) -/

/-- The pruning threshold `1e-12`. -/
def eps : ℚ := 1 / 1000000000000

/-- `m[c] += v` on an `unordered_map<int, double>`; `operator[]` value-initialises a
missing key to 0 before the addition. -/
def mapAdd : List (Int × ℚ) → Int → ℚ → List (Int × ℚ)
  | [], c, v => [(c, 0 + v)]
  | (c', w) :: rest, c, v =>
    if c' = c then (c', w + v) :: rest else (c', w) :: mapAdd rest c v

/-- The loop over `k` in `[b_start, b_end)` (lines 216-223) for one stored entry of A. -/
def accumB (B : CSR) (a_col : Int) (a_val : ℚ) (acc : List (Int × ℚ)) : List (Int × ℚ) :=
  let b_start := B.rowptr.getD a_col.toNat 0
  let b_end := B.rowptr.getD (a_col + 1).toNat 0
  (List.range' b_start (b_end - b_start)).foldl
    (fun acc k => mapAdd acc (B.colidx.getD k 0) (a_val * B.values.getD k 0)) acc

/-- `local_C_sparse[i]` after the accumulation loop (lines 206-225). -/
def local_C_sparse (B : CSR) (lrowptr : List Nat) (lcolidx : List Int) (lvalues : List ℚ)
    (i : Nat) : List (Int × ℚ) :=
  let start := lrowptr.getD i 0
  let stop := lrowptr.getD (i + 1) 0
  (List.range' start (stop - start)).foldl
    (fun acc j => accumB B (lcolidx.getD j 0) (lvalues.getD j 0) acc) []

/-- The order of `operator<` on `pair<int, double>` (non-strict form): lexicographic. -/
def pairLe (x y : Int × ℚ) : Prop := x.1 < y.1 ∨ (x.1 = y.1 ∧ x.2 ≤ y.2)

instance : DecidableRel pairLe := fun x y => by unfold pairLe; infer_instance

instance : IsTotal (Int × ℚ) pairLe :=
  ⟨fun x y => by
    unfold pairLe
    rcases lt_trichotomy x.1 y.1 with h | h | h
    · exact Or.inl (Or.inl h)
    · rcases le_total x.2 y.2 with h2 | h2
      · exact Or.inl (Or.inr ⟨h, h2⟩)
      · exact Or.inr (Or.inr ⟨h.symm, h2⟩)
    · exact Or.inr (Or.inl h)⟩

instance : IsTrans (Int × ℚ) pairLe :=
  ⟨fun x y z hxy hyz => by
    unfold pairLe at *
    rcases hxy with h1 | ⟨h1, h1'⟩ <;> rcases hyz with h2 | ⟨h2, h2'⟩
    · exact Or.inl (lt_trans h1 h2)
    · exact Or.inl (h2 ▸ h1)
    · exact Or.inl (h1 ▸ h2)
    · exact Or.inr ⟨h1.trans h2, le_trans h1' h2'⟩⟩

instance : IsAntisymm (Int × ℚ) pairLe :=
  ⟨fun x y hxy hyx => by
    unfold pairLe at hxy hyx
    rcases hxy with h1 | ⟨h1, h1'⟩ <;> rcases hyx with h2 | ⟨h2, h2'⟩
    · exact absurd h1 (not_lt_of_gt h2)
    · exact absurd h1 (by rw [h2]; exact lt_irrefl _)
    · exact absurd h2 (by rw [h1]; exact lt_irrefl _)
    · exact Prod.ext h1 (le_antisymm h1' h2')⟩

/-- `row_elements` after the filter and the `sort` (lines 229-235). -/
def row_elements (m : List (Int × ℚ)) : List (Int × ℚ) :=
  (m.filter (fun elem => decide (eps < |elem.2|))).insertionSort pairLe

/-- One iteration of the flattening loop (lines 227-243). -/
def flattenStep (sparse : Nat → List (Int × ℚ)) (st : CSR) (i : Nat) : CSR :=
  let re := row_elements (sparse i)
  let values := st.values ++ re.map Prod.snd
  { values := values
    colidx := st.colidx ++ re.map Prod.fst
    rowptr := st.rowptr ++ [values.length] }

/-- `local_rows` (line 197). -/
def local_rows_of (lrowptr : List Nat) : Nat :=
  if lrowptr.length > 0 then lrowptr.length - 1 else 0

/-- The local result `(local_C_rowptr, local_C_colidx, local_C_values)` (lines 197-247). -/
def computeC (B : CSR) (lrowptr : List Nat) (lcolidx : List Int) (lvalues : List ℚ) : CSR :=
  let local_rows := local_rows_of lrowptr
  if local_rows > 0 then
    (List.range local_rows).foldl (flattenStep (local_C_sparse B lrowptr lcolidx lvalues))
      { values := [], colidx := [], rowptr := [0] }
  else { values := [], colidx := [], rowptr := [0] }

/-- `local_rows` at `rank`. -/
def local_rows (A : CSR) (N size rank : Nat) : Nat :=
  local_rows_of (local_A_rowptr A N size rank)

/-- The local result of `rank`. -/
def local_C (A B : CSR) (N size rank : Nat) : CSR :=
  computeC B (local_A_rowptr A N size rank) (local_A_colidx A N size rank)
    (local_A_values A N size rank)

/-! ## Gather of C (lines 253-321) -/

/-- `all_nnz[p]` at the coordinator (line 255). -/
def all_nnz (A B : CSR) (N size p : Nat) : Nat := (local_C A B N size p).values.length

/-- `all_rows[p]` at the coordinator (line 259). -/
def all_rows (A : CSR) (N size p : Nat) : Nat := local_rows A N size p

/-- `nnz_offsets[i]` at the coordinator (line 265). -/
def nnz_offsets (A B : CSR) (N size : Nat) : Nat → Nat
  | 0 => 0
  | i + 1 => nnz_offsets A B N size i + all_nnz A B N size i

/-- `nnz_offsets[i]` as stored at process `rank`: the vector is filled at rank 0 only
(line 263) and keeps its initial zeros everywhere else. -/
def nnz_offsets_on (A B : CSR) (N size rank i : Nat) : Nat :=
  if rank = 0 then nnz_offsets A B N size i else 0

/-- `total_nnz` (line 273). -/
def total_nnz (A B : CSR) (N size : Nat) : Nat :=
  nnz_offsets A B N size (size - 1) + all_nnz A B N size (size - 1)

/-- `final_C_values` after the `MPI_Gatherv` of line 278. -/
def final_C_values (A B : CSR) (N size : Nat) : List ℚ :=
  gatherv (List.replicate (total_nnz A B N size) 0) (fun p => (local_C A B N size p).values)
    (all_nnz A B N size) (nnz_offsets A B N size) size

/-- `final_C_colidx` after the `MPI_Gatherv` of line 279. -/
def final_C_colidx (A B : CSR) (N size : Nat) : List Int :=
  gatherv (List.replicate (total_nnz A B N size) 0) (fun p => (local_C A B N size p).colidx)
    (all_nnz A B N size) (nnz_offsets A B N size) size

/-- `rowptr_counts[i]` (lines 286-288). -/
def rowptr_counts (A B : CSR) (N size : Nat) : Nat → Nat
  | 0 => (local_C A B N size 0).rowptr.length
  | i + 1 => all_rows A N size (i + 1)

/-- `rowptr_offsets[i]` (line 289). -/
def rowptr_offsets (A B : CSR) (N size : Nat) : Nat → Nat
  | 0 => 0
  | i + 1 => rowptr_offsets A B N size i + rowptr_counts A B N size i

/-- `send_rowptr` at `rank` (lines 296-304). -/
def send_rowptr (A B : CSR) (N size rank : Nat) : List Nat :=
  let local_C_rowptr := (local_C A B N size rank).rowptr
  if rank = 0 then local_C_rowptr
  else (List.range' 1 (local_C_rowptr.length - 1)).map
    (fun i => local_C_rowptr.getD i 0 + nnz_offsets_on A B N size rank rank)

/-- `total_rowptr_size` (line 307). -/
def total_rowptr_size (A B : CSR) (N size : Nat) : Nat :=
  rowptr_offsets A B N size (size - 1) + rowptr_counts A B N size (size - 1)

/-- `final_C_rowptr` right after the `MPI_Gatherv` of line 310. -/
def gathered_rowptr (A B : CSR) (N size : Nat) : List Nat :=
  gatherv (List.replicate (total_rowptr_size A B N size) 0) (send_rowptr A B N size)
    (rowptr_counts A B N size) (rowptr_offsets A B N size) size

/-- The inner loop of lines 318-320: `buf[start_idx + i] += d` for `i < count`. -/
def shiftBlock (buf : List Nat) (start_idx count d : Nat) : List Nat :=
  (List.range count).foldl
    (fun buf i => buf.set (start_idx + i) (buf.getD (start_idx + i) 0 + d)) buf

/-- `final_C_rowptr` after the rebasing loop of lines 315-321. -/
def final_C_rowptr (A B : CSR) (N size : Nat) : List Nat :=
  (List.range' 1 (size - 1)).foldl
    (fun buf proc => shiftBlock buf (rowptr_offsets A B N size proc)
      (rowptr_counts A B N size proc) (nnz_offsets A B N size proc))
    (gathered_rowptr A B N size)

/-- The merged result assembled at the coordinator. -/
def final_C (A B : CSR) (N size : Nat) : CSR :=
  { rowptr := final_C_rowptr A B N size
    colidx := final_C_colidx A B N size
    values := final_C_values A B N size }

/-! ## Output (lines 324-342) -/

/-- One output line (without the newline); `fmt` is the stream formatting of a `double`. -/
def writeRow (fmt : ℚ → String) (C : CSR) (i : Nat) : String :=
  let row_start := C.rowptr.getD i 0
  let row_end := C.rowptr.getD (i + 1) 0
  let k := row_end - row_start
  if k = 0 then "0"
  else (List.range' row_start (row_end - row_start)).foldl
    (fun s j => s ++ " " ++ toString (C.colidx.getD j 0) ++ " " ++ fmt (C.values.getD j 0))
    (toString k)

/-- The lines written by the coordinator. -/
def writeResult (fmt : ℚ → String) (C : CSR) (N : Nat) : List String :=
  (List.range N).map (writeRow fmt C)

/-! ## Reference notions used in the statements -/

/-- CSR invariants of a matrix with `rows` rows. -/
def WellFormed (M : CSR) (rows : Nat) : Prop :=
  M.rowptr.length = rows + 1 ∧ M.rowptr.getD 0 0 = 0 ∧ M.rowptr.Pairwise (· ≤ ·) ∧
    M.rowptr.getD rows 0 = M.colidx.length ∧ M.values.length = M.colidx.length

instance (M : CSR) (rows : Nat) : Decidable (WellFormed M rows) := by
  unfold WellFormed; infer_instance

/-- Every stored column index lies in `[0, M)`. -/
def ColsBelow (A : CSR) (M : Nat) : Prop := ∀ c ∈ A.colidx, 0 ≤ c ∧ c < (M : Int)

instance (A : CSR) (M : Nat) : Decidable (ColsBelow A M) := by
  unfold ColsBelow; infer_instance

/-- The stored `(column, value)` pairs of row `r`, i.e. the slice `[rowptr[r], rowptr[r+1])`. -/
def rowEntries (M : CSR) (r : Nat) : List (Int × ℚ) :=
  ((M.colidx.zip M.values).drop (M.rowptr.getD r 0)).take
    (M.rowptr.getD (r + 1) 0 - M.rowptr.getD r 0)

/-- The reference entry `S(i, c)`: the sum of `a * b` over the stored entries `(k, a)` of
row `i` of `A` and the stored entries `(c, b)` of row `k` of `B`. -/
def S (A B : CSR) (i : Nat) (c : Int) : ℚ :=
  ((rowEntries A i).map (fun ka =>
    (((rowEntries B ka.1.toNat).filter (fun cb => decide (cb.1 = c))).map
      (fun cb => ka.2 * cb.2)).sum)).sum

/-- The accumulator of a row given by its list of stored pairs: every stored `(k, a)` adds
`a * b` at column `c` for every stored `(c, b)` of row `k` of `B`. -/
def accumEntries (B : CSR) (entries : List (Int × ℚ)) : List (Int × ℚ) :=
  entries.foldl
    (fun acc ka => (rowEntries B ka.1.toNat).foldl
      (fun acc cb => mapAdd acc cb.1 (ka.2 * cb.2)) acc) []

/-- The value an accumulator holds for column `c` (0 when `c` is not a key). -/
def valOf (m : List (Int × ℚ)) (c : Int) : ℚ :=
  ((m.filter (fun e => decide (e.1 = c))).map Prod.snd).sum

/-- Row `r` of the product: the accumulator of row `r` of `A`, pruned and sorted. -/
def resultRow (A B : CSR) (r : Nat) : List (Int × ℚ) :=
  row_elements (accumEntries B (rowEntries A r))

/-- The row pointer of a matrix whose rows have the given lengths: entry `i` is the sum of
the first `i` lengths. -/
def rowptrOf (lens : List Nat) : List Nat :=
  (List.range (lens.length + 1)).map (fun i => (lens.take i).sum)

/-- The CSR matrix whose rows are the given lists of pairs. -/
def assemble (rows : List (List (Int × ℚ))) : CSR :=
  { rowptr := rowptrOf (rows.map List.length)
    colidx := rows.flatten.map Prod.fst
    values := rows.flatten.map Prod.snd }

/-- The reference product: the rows `resultRow A B 0, .., resultRow A B (N - 1)` in CSR form. -/
def productCSR (A B : CSR) (N : Nat) : CSR :=
  assemble ((List.range N).map (resultRow A B))


/-! ## Concrete matrices -/

/-- The `M × M` identity in CSR form: `rowptr = [0, 1, .., M]`, `colidx = [0, .., M - 1]`,
all values 1. -/
def identityCSR (M : Nat) : CSR :=
  { rowptr := List.range (M + 1)
    colidx := (List.range M).map (fun j : Nat => (j : Int))
    values := List.replicate M 1 }

/-- The matrix `[[1, 2], [0, 3]]`. -/
def specA : CSR := { rowptr := [0, 2, 3], colidx := [0, 1, 1], values := [1, 2, 3] }

/-- The `1 × 1` matrix `[[5]]`. -/
def fiveA : CSR := { rowptr := [0, 1], colidx := [0], values := [5] }

/-- The `1 × 1` matrix holding an explicit zero. -/
def zeroB : CSR := { rowptr := [0, 1], colidx := [0], values := [0] }

/-- A `4 × 3` matrix with an empty row and rows that are not column-sorted. -/
def unsortedA : CSR :=
  { rowptr := [0, 2, 2, 5, 6], colidx := [1, 0, 2, 0, 1, 2], values := [1, 2, 3, 4, 5, 1 / 3] }

/-- A matrix with 3 rows that are not column-sorted (one column index is negative). -/
def unsortedB : CSR :=
  { rowptr := [0, 2, 3, 5], colidx := [5, -1, 5, -1, 2], values := [1, 2, -1 / 2, 4, 5] }

/-- The empty matrix (no rows). -/
def emptyCSR : CSR := { rowptr := [0], colidx := [], values := [] }

/-! ## The output line in the words of the specification -/

/-- The output line of a row as the specification words it: `0` for a row without stored
entries, otherwise the number of stored pairs followed by the column and the value of every
pair in stored order, all separated by single spaces. -/
def specLine (fmt : ℚ → String) (row : List (Int × ℚ)) : String :=
  if row.length = 0 then "0"
  else " ".intercalate (toString row.length :: row.flatMap (fun e => [toString e.1, fmt e.2]))

/-! ## Input (lines 40-74)

The input stream is the list of its whitespace-separated numerals. -/

/-- `stream >> n` for an `int n`: consumes one numeral, which must be an integer. -/
def readInt : List ℚ → Option (Int × List ℚ)
  | [] => none
  | q :: rest => if q.den = 1 then some (q.num, rest) else none

/-- `stream >> val` for a `double val`: consumes one numeral. -/
def readDouble : List ℚ → Option (ℚ × List ℚ)
  | [] => none
  | q :: rest => some (q, rest)

/-- The loop `for (int j = 0; j < k; j++)` of lines 51-57: reads `col` and `val` and appends
them to `colidx` and `values`. -/
def readPairs : Nat → List ℚ → List Int → List ℚ → Option (List Int × List ℚ × List ℚ)
  | 0, s, colidx, values => some (colidx, values, s)
  | k + 1, s, colidx, values =>
    match readInt s with
    | none => none
    | some (col, s1) =>
      match readDouble s1 with
      | none => none
      | some (val, s2) => readPairs k s2 (colidx ++ [col]) (values ++ [val])

/-- The loop `for (int i = 0; i < N; i++)` of lines 48-59: reads `k`, then `k` pairs, then
appends `rowptr.back() + k` to the row pointer. -/
def readRows : Nat → List ℚ → CSR → Option (CSR × List ℚ)
  | 0, s, M => some (M, s)
  | n + 1, s, M =>
    match readInt s with
    | none => none
    | some (k, s1) =>
      match readPairs k.toNat s1 M.colidx M.values with
      | none => none
      | some (colidx, values, s2) =>
        readRows n s2
          { rowptr := M.rowptr ++ [(((M.rowptr.getLastD 0 : Nat) : Int) + k).toNat]
            colidx := colidx
            values := values }

/-- Construction of one CSR matrix with `rows` rows from the stream: the row pointer
starts as `[0]` (lines 44-45). -/
def readCSR (rows : Nat) (s : List ℚ) : Option (CSR × List ℚ) :=
  readRows rows s { rowptr := [0], colidx := [], values := [] }

/-- The coordinator's input phase (lines 42-73): the dimensions `N M P`, then the rows of
`A`, then the rows of `B`. -/
def readInput (s : List ℚ) : Option (Int × Int × Int × CSR × CSR) :=
  match readInt s with
  | none => none
  | some (N, s1) =>
    match readInt s1 with
    | none => none
    | some (M, s2) =>
      match readInt s2 with
      | none => none
      | some (P, s3) =>
        match readCSR N.toNat s3 with
        | none => none
        | some (A, s4) =>
          match readCSR M.toNat s4 with
          | none => none
          | some (B, _) => some (N, M, P, A, B)

/-- The numerals of one input row: the count `k`, then `k` pairs `col val`. -/
def encodeRow (row : List (Int × ℚ)) : List ℚ :=
  ((row.length : Int) : ℚ) :: row.flatMap (fun e => [((e.1 : Int) : ℚ), e.2])

/-- The numerals of a sequence of input rows. -/
def encodeRows (rows : List (List (Int × ℚ))) : List ℚ :=
  rows.flatMap encodeRow

/-! ## A rearranged matrix -/

/-- The matrix `[[1, 2], [0, 3]]` with the pairs of row 0 stored in reverse order. -/
def swappedA : CSR := { rowptr := [0, 2, 3], colidx := [1, 0, 1], values := [2, 1, 3] }

/-! ## The partition plan -/

theorem rowcount_antitone (N size : Nat) {p q : Nat} (h : p ≤ q) :
    rowcount N size q ≤ rowcount N size p := by
  unfold rowcount
  split_ifs <;> omega

theorem rowoffset_closed (N size p : Nat) :
    rowoffset N size p = p * (N / size) + min p (N % size) := by
  induction p with
  | zero => simp [rowoffset]
  | succ p ih =>
    simp only [rowoffset, ih, rowcount, rowsperproc, rem]
    split_ifs with h
    · rw [Nat.min_eq_left (by omega), Nat.min_eq_left (by omega)]; ring
    · rw [Nat.min_eq_right (by omega), Nat.min_eq_right (by omega)]; ring

theorem rowoffset_size (N size : Nat) (h : 1 ≤ size) : rowoffset N size size = N := by
  rw [rowoffset_closed, Nat.min_eq_right (le_of_lt (Nat.mod_lt _ (by omega)))]
  exact Nat.div_add_mod N size

theorem rowoffset_mono (N size : Nat) {p q : Nat} (h : p ≤ q) :
    rowoffset N size p ≤ rowoffset N size q := by
  induction h with
  | refl => exact le_refl _
  | step _ ih => exact le_trans ih (by simp [rowoffset])

theorem rowoffset_add_rowcount_le (N size : Nat) (h : 1 ≤ size) {p : Nat} (hp : p < size) :
    rowoffset N size p + rowcount N size p ≤ N := by
  have h1 : rowoffset N size (p + 1) ≤ rowoffset N size size := rowoffset_mono N size hp
  rw [rowoffset_size N size h] at h1
  simpa [rowoffset] using h1

theorem rowoffset_eq_sum (N size p : Nat) :
    rowoffset N size p = ∑ q ∈ Finset.range p, rowcount N size q := by
  induction p with
  | zero => simp [rowoffset]
  | succ p ih => rw [Finset.sum_range_succ, ← ih]; rfl

/-- C6. Partition plan: for every `N` and every worker count `size ≥ 1`, each worker
`p < size` has `rowcount p = N / size + (1 if p < N % size else 0)` and `rowoffset p` equal
to the sum of the counts of the workers before it; the ranges
`[rowoffset p, rowoffset p + rowcount p)` are contiguous, pairwise disjoint and in worker
order, every row `r < N` lies in exactly one of them, none reaches past `N`, and the
counts sum to `N`. -/
theorem partition_plan (N size : Nat) (hsize : 1 ≤ size) :
    (∀ p, p < size →
      rowcount N size p = N / size + (if p < N % size then 1 else 0) ∧
      rowoffset N size p = ∑ q ∈ Finset.range p, rowcount N size q) ∧
    (∀ p, p + 1 < size → rowoffset N size (p + 1) = rowoffset N size p + rowcount N size p) ∧
    (∀ p q, p < q → q < size →
      rowoffset N size p + rowcount N size p ≤ rowoffset N size q) ∧
    (∀ r, r < N → ∃! p, p < size ∧
      rowoffset N size p ≤ r ∧ r < rowoffset N size p + rowcount N size p) ∧
    (∀ p, p < size → rowoffset N size p + rowcount N size p ≤ N) ∧
    ∑ p ∈ Finset.range size, rowcount N size p = N := by
  refine ⟨fun p _ => ⟨rfl, rowoffset_eq_sum N size p⟩, fun p _ => rfl, ?_, ?_, ?_, ?_⟩
  · intro p q hpq _
    exact rowoffset_mono N size (Nat.succ_le_of_lt hpq)
  · intro r hr
    have hex : ∃ p, r < rowoffset N size (p + 1) :=
      ⟨size, lt_of_lt_of_le (by rw [rowoffset_size N size hsize]; exact hr)
        (rowoffset_mono N size (Nat.le_succ size))⟩
    classical
    refine ⟨Nat.find hex, ⟨?_, ?_, Nat.find_spec hex⟩, ?_⟩
    · by_contra hge
      push_neg at hge
      obtain ⟨k, hk⟩ : ∃ k, size = k + 1 := ⟨size - 1, by omega⟩
      have hlt : r < rowoffset N size (k + 1) := by
        rw [← hk, rowoffset_size N size hsize]; exact hr
      have := Nat.find_min' hex hlt
      omega
    · rcases hq : Nat.find hex with _ | k
      · simp [rowoffset]
      · by_contra hlt
        push_neg at hlt
        have := Nat.find_min' hex hlt
        omega
    · rintro q ⟨_, hq1, hq2⟩
      have h1 : Nat.find hex ≤ q := Nat.find_min' hex hq2
      rcases Nat.lt_or_ge (Nat.find hex) q with hlt | hge
      · have h2 := Nat.find_spec hex
        have h3 : rowoffset N size (Nat.find hex + 1) ≤ rowoffset N size q :=
          rowoffset_mono N size hlt
        omega
      · omega
  · intro p hp
    exact rowoffset_add_rowcount_le N size hsize hp
  · rw [← rowoffset_eq_sum]; exact rowoffset_size N size hsize

/-- C6 at `N = 7`, `size = 3`. -/
theorem partition_plan_witness :
    (1 ≤ 3) ∧
    ((∀ p, p < 3 →
      rowcount 7 3 p = 7 / 3 + (if p < 7 % 3 then 1 else 0) ∧
      rowoffset 7 3 p = ∑ q ∈ Finset.range p, rowcount 7 3 q) ∧
    (∀ p, p + 1 < 3 → rowoffset 7 3 (p + 1) = rowoffset 7 3 p + rowcount 7 3 p) ∧
    (∀ p q, p < q → q < 3 → rowoffset 7 3 p + rowcount 7 3 p ≤ rowoffset 7 3 q) ∧
    (∀ r, r < 7 → ∃! p, p < 3 ∧ rowoffset 7 3 p ≤ r ∧ r < rowoffset 7 3 p + rowcount 7 3 p) ∧
    (∀ p, p < 3 → rowoffset 7 3 p + rowcount 7 3 p ≤ 7) ∧
    ∑ p ∈ Finset.range 3, rowcount 7 3 p = 7) :=
  ⟨by decide, partition_plan 7 3 (by decide)⟩



/-! ## Well-formed row pointers -/

theorem WellFormed.rowptr_mono {M : CSR} {rows : Nat} (h : WellFormed M rows) {i j : Nat}
    (hij : i ≤ j) (hj : j ≤ rows) : M.rowptr.getD i 0 ≤ M.rowptr.getD j 0 := by
  obtain ⟨hlen, _, hpw, _, _⟩ := h
  rcases Nat.eq_or_lt_of_le hij with rfl | hlt
  · exact le_refl _
  · have hj' : j < M.rowptr.length := by omega
    have hi' : i < M.rowptr.length := by omega
    have := List.pairwise_iff_getElem.1 hpw i j hi' hj' hlt
    simpa [List.getD_eq_getElem?_getD, List.getElem?_eq_getElem hi',
      List.getElem?_eq_getElem hj'] using this

theorem WellFormed.rowptr_le_length {M : CSR} {rows : Nat} (h : WellFormed M rows) {i : Nat}
    (hi : i ≤ rows) : M.rowptr.getD i 0 ≤ M.colidx.length := by
  have := h.rowptr_mono hi (le_refl rows)
  rw [h.2.2.2.1] at this
  exact this

/-! ## Nonzero counts and offsets -/

theorem offset_eq (A_rowptr : List Nat) (N size p : Nat) :
    offset A_rowptr N size p =
      if rowcount N size p > 0 then A_rowptr.getD (rowoffset N size p) 0 else 0 := by
  unfold offset
  simp

theorem sendcount_eq (A_rowptr : List Nat) (N size p : Nat) :
    sendcount A_rowptr N size p =
      A_rowptr.getD (rowoffset N size p + rowcount N size p) 0 -
        A_rowptr.getD (rowoffset N size p) 0 := by
  unfold sendcount
  by_cases h : rowcount N size p > 0
  · simp [h]
  · have h0 : rowcount N size p = 0 := by omega
    simp [h0]

/-- C7 fails for a worker without rows: with `A_rowptr = [0, 1]` (one row holding one
entry) and two workers, worker 1 has no rows, `offset 1 = 0`, yet
`A_rowptr[rowoffset 1] = A_rowptr[1] = 1`. -/
theorem offset_zero_rows_counterexample :
    WellFormed ⟨[0, 1], [0], [1]⟩ 1 ∧ 1 ≤ 2 ∧ 1 < 2 ∧ rowcount 1 2 1 = 0 ∧
      offset [0, 1] 1 2 1 = 0 ∧ [0, 1].getD (rowoffset 1 2 1) 0 = 1 ∧
      ¬ (offset [0, 1] 1 2 1 = [0, 1].getD (rowoffset 1 2 1) 0) := by
  decide

/-- C7 (as amended). For every worker `p` that has rows, `offset p` is
`A_rowptr[rowoffset p]`; for a worker without rows the guard `end_row > start_row` fails and
`offset p` keeps its initial value 0. -/
theorem offset_spec (A_rowptr : List Nat) (N size p : Nat) :
    (0 < rowcount N size p →
      offset A_rowptr N size p = A_rowptr.getD (rowoffset N size p) 0) ∧
    (rowcount N size p = 0 → offset A_rowptr N size p = 0) := by
  constructor
  · intro h
    rw [offset_eq, if_pos h]
  · intro h
    rw [offset_eq, h]; rfl

/-- C7 (as amended) at `A_rowptr = [0, 2, 3]`, `N = 2`, three workers, worker 1. -/
theorem offset_spec_witness :
    (0 < rowcount 2 3 1 →
      offset [0, 2, 3] 2 3 1 = [0, 2, 3].getD (rowoffset 2 3 1) 0) ∧
    (rowcount 2 3 1 = 0 → offset [0, 2, 3] 2 3 1 = 0) :=
  offset_spec [0, 2, 3] 2 3 1

/-- C8. For every well-formed `A` with `N` rows, every worker count `size ≥ 1` and every
worker `p < size`, `sendcount p` is `A_rowptr[rowoffset p + rowcount p] - A_rowptr[rowoffset p]`
(an exact difference: the subtrahend is the smaller), and it is 0 for a worker without
rows. -/
theorem sendcount_spec (A : CSR) (N size p : Nat) (hA : WellFormed A N) (hsize : 1 ≤ size)
    (hp : p < size) :
    sendcount A.rowptr N size p =
        A.rowptr.getD (rowoffset N size p + rowcount N size p) 0 -
          A.rowptr.getD (rowoffset N size p) 0 ∧
      A.rowptr.getD (rowoffset N size p) 0 ≤
        A.rowptr.getD (rowoffset N size p + rowcount N size p) 0 ∧
      (rowcount N size p = 0 → sendcount A.rowptr N size p = 0) := by
  refine ⟨sendcount_eq _ _ _ _, ?_, ?_⟩
  · exact hA.rowptr_mono (Nat.le_add_right _ _) (rowoffset_add_rowcount_le N size hsize hp)
  · intro h
    rw [sendcount_eq, h]; simp

/-- C8 at the matrix `[[1, 2], [0, 3]]`, three workers, worker 0. -/
theorem sendcount_spec_witness :
    WellFormed ⟨[0, 2, 3], [0, 1, 1], [1, 2, 3]⟩ 2 ∧ 1 ≤ 3 ∧ 0 < 3 ∧
    (sendcount [0, 2, 3] 2 3 0 =
        [0, 2, 3].getD (rowoffset 2 3 0 + rowcount 2 3 0) 0 - [0, 2, 3].getD (rowoffset 2 3 0) 0 ∧
      [0, 2, 3].getD (rowoffset 2 3 0) 0 ≤ [0, 2, 3].getD (rowoffset 2 3 0 + rowcount 2 3 0) 0 ∧
      (rowcount 2 3 0 = 0 → sendcount [0, 2, 3] 2 3 0 = 0)) :=
  ⟨by decide, by decide, by decide,
    sendcount_spec ⟨[0, 2, 3], [0, 1, 1], [1, 2, 3]⟩ 2 3 0 (by decide) (by decide) (by decide)⟩


/-! ## Generic list facts -/

theorem foldl_append_eq_flatMap {α β : Type} (f : α → List β) (l : List α) (init : List β) :
    l.foldl (fun acc x => acc ++ f x) init = init ++ l.flatMap f := by
  induction l generalizing init with
  | nil => simp
  | cons x xs ih => simp [ih, List.append_assoc]

theorem range_flatMap_succ {β : Type} (f : Nat → List β) (k : Nat) :
    (List.range (k + 1)).flatMap f = (List.range k).flatMap f ++ f k := by
  rw [List.range_succ, List.flatMap_append, List.flatMap_singleton]

theorem range_flatMap_split {β : Type} (f : Nat → List β) {p size : Nat} (hp : p < size) :
    (List.range size).flatMap f =
      (List.range p).flatMap f ++ (f p ++ (List.range' (p + 1) (size - (p + 1))).flatMap f) := by
  have h : List.range size = List.range (p + 1) ++ List.range' (p + 1) (size - (p + 1)) := by
    have h2 := List.range'_append_1 0 (p + 1) (size - (p + 1))
    rw [Nat.zero_add, Nat.sub_add_cancel hp] at h2
    rw [List.range_eq_range', List.range_eq_range']
    exact h2.symm
  rw [h, List.flatMap_append, range_flatMap_succ, List.append_assoc]

theorem range_flatMap_slice {β : Type} (f : Nat → List β) {p size : Nat} (hp : p < size) :
    ((List.range size).flatMap f |>.drop ((List.range p).flatMap f).length).take (f p).length
      = f p := by
  rw [range_flatMap_split f hp, List.drop_left, List.take_left]

theorem slice_slice {α : Type} (L : List α) (off cnt a b : Nat) (h : a + b ≤ cnt) :
    (((L.drop off).take cnt).drop a).take b = (L.drop (off + a)).take b := by
  rw [List.drop_take, List.take_take, List.drop_drop, Nat.min_eq_left (by omega)]

theorem zip_slice {α β : Type} (l : List α) (l' : List β) (off cnt : Nat) :
    ((l.drop off).take cnt).zip ((l'.drop off).take cnt) = ((l.zip l').drop off).take cnt := by
  simp only [List.zip_eq_zipWith, List.take_zipWith, List.drop_zipWith]

/-! ## The scattered row block -/

theorem all_local_rowptrs_eq (A_rowptr : List Nat) (N size : Nat) :
    all_local_rowptrs A_rowptr N size = (List.range size).flatMap (local_rowptrs A_rowptr N size) := by
  unfold all_local_rowptrs
  rw [foldl_append_eq_flatMap]; rfl

theorem local_rowptrs_length (A_rowptr : List Nat) (N size p : Nat) (h : 0 < rowcount N size p) :
    (local_rowptrs A_rowptr N size p).length = rowcount N size p + 1 := by
  unfold local_rowptrs
  simp [h]

theorem local_rowptrs_nil (A_rowptr : List Nat) (N size p : Nat) (h : rowcount N size p = 0) :
    local_rowptrs A_rowptr N size p = [] := by
  unfold local_rowptrs
  simp [h]

theorem local_rowptrs_getD (A_rowptr : List Nat) (N size p i : Nat) (h : 0 < rowcount N size p)
    (hi : i ≤ rowcount N size p) :
    (local_rowptrs A_rowptr N size p).getD i 0 =
      A_rowptr.getD (rowoffset N size p + i) 0 - A_rowptr.getD (rowoffset N size p) 0 := by
  unfold local_rowptrs
  rw [if_pos h]
  cases i with
  | zero => simp
  | succ i =>
    have hi' : i < rowcount N size p := hi
    simp only [List.getD_eq_getElem?_getD, List.getElem?_cons_succ, List.getElem?_map,
      List.getElem?_range' _ _ hi']
    simp [Nat.add_comm 1 i]

theorem rowptr_sendcount_eq (A_rowptr : List Nat) (N size p : Nat) :
    rowptr_sendcount A_rowptr N size p = (local_rowptrs A_rowptr N size p).length := by
  unfold rowptr_sendcount
  split_ifs with h
  · rfl
  · rw [local_rowptrs_nil A_rowptr N size p (by omega)]; rfl

theorem rowptr_offset_eq (A_rowptr : List Nat) (N size p : Nat) (h : 0 < rowcount N size p) :
    rowptr_offset A_rowptr N size p =
      ((List.range p).flatMap (local_rowptrs A_rowptr N size)).length := by
  induction p with
  | zero => simp [rowptr_offset]
  | succ p ih =>
    have hp : 0 < rowcount N size p :=
      lt_of_lt_of_le h (rowcount_antitone N size (Nat.le_succ p))
    rw [rowptr_offset, if_pos h, ih hp, rowptr_sendcount_eq, range_flatMap_succ,
      List.length_append]

theorem local_A_rowptr_eq (A : CSR) (N size p : Nat) (hp : p < size) (h : 0 < rowcount N size p) :
    local_A_rowptr A N size p = local_rowptrs A.rowptr N size p := by
  unfold local_A_rowptr scatterv
  rw [all_local_rowptrs_eq, rowptr_offset_eq _ _ _ _ h, rowptr_sendcount_eq,
    range_flatMap_slice _ hp]

theorem local_A_rowptr_nil (A : CSR) (N size p : Nat) (h : rowcount N size p = 0) :
    local_A_rowptr A N size p = [] := by
  unfold local_A_rowptr scatterv
  rw [rowptr_sendcount_eq, local_rowptrs_nil _ _ _ _ h]
  simp

theorem offset_add_sendcount_le (A : CSR) (N size p : Nat) (hA : WellFormed A N)
    (hsize : 1 ≤ size) (hp : p < size) :
    offset A.rowptr N size p + sendcount A.rowptr N size p ≤ A.colidx.length := by
  have hle := rowoffset_add_rowcount_le N size hsize hp
  have h1 := hA.rowptr_mono (Nat.le_add_right (rowoffset N size p) (rowcount N size p)) hle
  have h2 := hA.rowptr_le_length hle
  rw [offset_eq, sendcount_eq]
  split_ifs <;> omega

/-- Local row `i` of worker `p` lists the same pairs as global row `rowoffset p + i`. -/
theorem local_rowEntries (A : CSR) (N size p i : Nat) (hA : WellFormed A N) (hsize : 1 ≤ size)
    (hp : p < size) (hi : i < rowcount N size p) :
    rowEntries ⟨local_A_rowptr A N size p, local_A_colidx A N size p,
        local_A_values A N size p⟩ i =
      rowEntries A (rowoffset N size p + i) := by
  have hpos : 0 < rowcount N size p := by omega
  have hle := rowoffset_add_rowcount_le N size hsize hp
  have m1 := hA.rowptr_mono (Nat.le_add_right (rowoffset N size p) i) (by omega)
  have m2 : A.rowptr.getD (rowoffset N size p + i) 0 ≤
      A.rowptr.getD (rowoffset N size p + i + 1) 0 :=
    hA.rowptr_mono (Nat.le_succ (rowoffset N size p + i)) (by omega)
  have m3 := hA.rowptr_mono (show rowoffset N size p + i + 1 ≤
    rowoffset N size p + rowcount N size p by omega) hle
  have e : rowoffset N size p + (i + 1) = rowoffset N size p + i + 1 := rfl
  unfold rowEntries
  simp only [local_A_colidx, local_A_values, scatterv]
  rw [local_A_rowptr_eq A N size p hp hpos, zip_slice,
    local_rowptrs_getD _ _ _ _ _ hpos (le_of_lt hi), local_rowptrs_getD _ _ _ _ _ hpos hi,
    sendcount_eq, offset_eq, if_pos hpos, e, slice_slice]
  · have e1 : A.rowptr.getD (rowoffset N size p) 0 +
        (A.rowptr.getD (rowoffset N size p + i) 0 - A.rowptr.getD (rowoffset N size p) 0) =
        A.rowptr.getD (rowoffset N size p + i) 0 := by omega
    have e2 : A.rowptr.getD (rowoffset N size p + i + 1) 0 -
        A.rowptr.getD (rowoffset N size p) 0 -
        (A.rowptr.getD (rowoffset N size p + i) 0 - A.rowptr.getD (rowoffset N size p) 0) =
        A.rowptr.getD (rowoffset N size p + i + 1) 0 -
          A.rowptr.getD (rowoffset N size p + i) 0 := by omega
    rw [e1, e2]
  · omega

/-- C9. For every well-formed `A`, worker count `size ≥ 1` and worker `p` with rows: the
row pointer shipped to `p` has `rowcount p + 1` entries, starts with 0, and its entry `i`
is `A_rowptr[rowoffset p + i] - A_rowptr[rowoffset p]`; the shipped values and column
indices are the slices of length `sendcount p` of the arrays of `A` that start at
`offset p`; and local row `i` lists exactly the pairs of global row `rowoffset p + i`. -/
theorem local_row_block (A : CSR) (N size p : Nat) (hA : WellFormed A N) (hsize : 1 ≤ size)
    (hp : p < size) (hrows : 0 < rowcount N size p) :
    (local_A_rowptr A N size p).length = rowcount N size p + 1 ∧
    (local_A_rowptr A N size p).getD 0 0 = 0 ∧
    (∀ i, i ≤ rowcount N size p →
      (local_A_rowptr A N size p).getD i 0 + A.rowptr.getD (rowoffset N size p) 0 =
        A.rowptr.getD (rowoffset N size p + i) 0) ∧
    local_A_values A N size p =
      (A.values.drop (offset A.rowptr N size p)).take (sendcount A.rowptr N size p) ∧
    (local_A_values A N size p).length = sendcount A.rowptr N size p ∧
    local_A_colidx A N size p =
      (A.colidx.drop (offset A.rowptr N size p)).take (sendcount A.rowptr N size p) ∧
    (local_A_colidx A N size p).length = sendcount A.rowptr N size p ∧
    (∀ i, i < rowcount N size p →
      rowEntries ⟨local_A_rowptr A N size p, local_A_colidx A N size p,
          local_A_values A N size p⟩ i =
        rowEntries A (rowoffset N size p + i)) := by
  have hle := rowoffset_add_rowcount_le N size hsize hp
  have hos := offset_add_sendcount_le A N size p hA hsize hp
  refine ⟨?_, ?_, ?_, rfl, ?_, rfl, ?_, ?_⟩
  · rw [local_A_rowptr_eq A N size p hp hrows, local_rowptrs_length _ _ _ _ hrows]
  · rw [local_A_rowptr_eq A N size p hp hrows, local_rowptrs_getD _ _ _ _ _ hrows (Nat.zero_le _)]
    simp
  · intro i hi
    have m1 := hA.rowptr_mono (Nat.le_add_right (rowoffset N size p) i) (by omega)
    rw [local_A_rowptr_eq A N size p hp hrows, local_rowptrs_getD _ _ _ _ _ hrows hi]
    omega
  · simp only [local_A_values, scatterv, List.length_take, List.length_drop]
    rw [hA.2.2.2.2]; omega
  · simp only [local_A_colidx, scatterv, List.length_take, List.length_drop]
    omega
  · intro i hi
    exact local_rowEntries A N size p i hA hsize hp hi

/-- C9 at the matrix `[[1, 2], [0, 3]]`, three workers, worker 1. -/
theorem local_row_block_witness :
    WellFormed ⟨[0, 2, 3], [0, 1, 1], [1, 2, 3]⟩ 2 ∧ 1 ≤ 3 ∧ 1 < 3 ∧ 0 < rowcount 2 3 1 ∧
    ((local_A_rowptr ⟨[0, 2, 3], [0, 1, 1], [1, 2, 3]⟩ 2 3 1).length = rowcount 2 3 1 + 1 ∧
    (local_A_rowptr ⟨[0, 2, 3], [0, 1, 1], [1, 2, 3]⟩ 2 3 1).getD 0 0 = 0 ∧
    (∀ i, i ≤ rowcount 2 3 1 →
      (local_A_rowptr ⟨[0, 2, 3], [0, 1, 1], [1, 2, 3]⟩ 2 3 1).getD i 0 +
          (CSR.mk [0, 2, 3] [0, 1, 1] [1, 2, 3]).rowptr.getD (rowoffset 2 3 1) 0 =
        (CSR.mk [0, 2, 3] [0, 1, 1] [1, 2, 3]).rowptr.getD (rowoffset 2 3 1 + i) 0) ∧
    local_A_values ⟨[0, 2, 3], [0, 1, 1], [1, 2, 3]⟩ 2 3 1 =
      ((CSR.mk [0, 2, 3] [0, 1, 1] [1, 2, 3]).values.drop
        (offset (CSR.mk [0, 2, 3] [0, 1, 1] [1, 2, 3]).rowptr 2 3 1)).take
        (sendcount (CSR.mk [0, 2, 3] [0, 1, 1] [1, 2, 3]).rowptr 2 3 1) ∧
    (local_A_values ⟨[0, 2, 3], [0, 1, 1], [1, 2, 3]⟩ 2 3 1).length =
      sendcount (CSR.mk [0, 2, 3] [0, 1, 1] [1, 2, 3]).rowptr 2 3 1 ∧
    local_A_colidx ⟨[0, 2, 3], [0, 1, 1], [1, 2, 3]⟩ 2 3 1 =
      ((CSR.mk [0, 2, 3] [0, 1, 1] [1, 2, 3]).colidx.drop
        (offset (CSR.mk [0, 2, 3] [0, 1, 1] [1, 2, 3]).rowptr 2 3 1)).take
        (sendcount (CSR.mk [0, 2, 3] [0, 1, 1] [1, 2, 3]).rowptr 2 3 1) ∧
    (local_A_colidx ⟨[0, 2, 3], [0, 1, 1], [1, 2, 3]⟩ 2 3 1).length =
      sendcount (CSR.mk [0, 2, 3] [0, 1, 1] [1, 2, 3]).rowptr 2 3 1 ∧
    (∀ i, i < rowcount 2 3 1 →
      rowEntries ⟨local_A_rowptr ⟨[0, 2, 3], [0, 1, 1], [1, 2, 3]⟩ 2 3 1,
          local_A_colidx ⟨[0, 2, 3], [0, 1, 1], [1, 2, 3]⟩ 2 3 1,
          local_A_values ⟨[0, 2, 3], [0, 1, 1], [1, 2, 3]⟩ 2 3 1⟩ i =
        rowEntries ⟨[0, 2, 3], [0, 1, 1], [1, 2, 3]⟩ (rowoffset 2 3 1 + i))) :=
  ⟨by decide, by decide, by decide, by decide,
    local_row_block ⟨[0, 2, 3], [0, 1, 1], [1, 2, 3]⟩ 2 3 1 (by decide) (by decide) (by decide)
      (by decide)⟩


/-! ## Index loops read the row slices -/

theorem range'_map_getD {α : Type} (l : List α) (d : α) (s n : Nat) (h : s + n ≤ l.length) :
    (List.range' s n).map (fun j => l.getD j d) = (l.drop s).take n := by
  apply List.ext_getElem?
  intro i
  by_cases hi : i < n
  · have h1 : s + i < l.length := by omega
    simp [List.getElem?_range' _ _ hi, List.getElem?_take_of_lt hi, List.getElem?_drop,
      List.getElem?_eq_getElem h1]
  · have h1 : (List.map (fun j => l.getD j d) (List.range' s n)).length ≤ i := by simp; omega
    have h2 : (List.take n (List.drop s l)).length ≤ i := by simp; omega
    rw [List.getElem?_eq_none h1, List.getElem?_eq_none h2]

theorem range'_map_getD_zip (c : List Int) (v : List ℚ) (s n : Nat) (hc : s + n ≤ c.length)
    (hv : s + n ≤ v.length) :
    (List.range' s n).map (fun j => (c.getD j 0, v.getD j 0)) = ((c.zip v).drop s).take n := by
  rw [← zip_slice, ← range'_map_getD c 0 s n hc, ← range'_map_getD v 0 s n hv]
  simp [List.zip_map']

theorem WellFormed.row_bound {M : CSR} {rows : Nat} (h : WellFormed M rows) {r : Nat}
    (hr : r < rows) :
    M.rowptr.getD r 0 + (M.rowptr.getD (r + 1) 0 - M.rowptr.getD r 0) ≤ M.colidx.length := by
  have h1 : M.rowptr.getD r 0 ≤ M.rowptr.getD (r + 1) 0 := h.rowptr_mono (Nat.le_succ r) hr
  have h2 := h.rowptr_le_length (show r + 1 ≤ rows from hr)
  omega

theorem accumB_eq (B : CSR) (M : Nat) (hB : WellFormed B M) (a_col : Int) (a_val : ℚ)
    (acc : List (Int × ℚ)) (h0 : 0 ≤ a_col) (h1 : a_col < (M : Int)) :
    accumB B a_col a_val acc =
      (rowEntries B a_col.toNat).foldl (fun acc cb => mapAdd acc cb.1 (a_val * cb.2)) acc := by
  have hr : a_col.toNat < M := by omega
  have e : (a_col + 1).toNat = a_col.toNat + 1 := by omega
  have hb := hB.row_bound hr
  unfold accumB rowEntries
  simp only [e]
  rw [← range'_map_getD_zip _ _ _ _ hb (by rw [hB.2.2.2.2]; exact hb), List.foldl_map]

theorem local_C_sparse_eq (B : CSR) (M : Nat) (hB : WellFormed B M) (lrowptr : List Nat)
    (lcolidx : List Int) (lvalues : List ℚ) (i : Nat)
    (hc : lrowptr.getD i 0 + (lrowptr.getD (i + 1) 0 - lrowptr.getD i 0) ≤ lcolidx.length)
    (hv : lrowptr.getD i 0 + (lrowptr.getD (i + 1) 0 - lrowptr.getD i 0) ≤ lvalues.length)
    (hcols : ∀ c ∈ lcolidx, 0 ≤ c ∧ c < (M : Int)) :
    local_C_sparse B lrowptr lcolidx lvalues i =
      accumEntries B (rowEntries ⟨lrowptr, lcolidx, lvalues⟩ i) := by
  unfold local_C_sparse accumEntries rowEntries
  simp only
  rw [← range'_map_getD_zip _ _ _ _ hc hv, List.foldl_map]
  apply List.foldl_ext
  intro acc j hj
  have hj' := List.mem_range'_1.1 hj
  have hlt : j < lcolidx.length := by omega
  have hmem : lcolidx.getD j 0 ∈ lcolidx := by
    rw [List.getD_eq_getElem?_getD, List.getElem?_eq_getElem hlt]
    exact List.getElem_mem hlt
  exact accumB_eq B M hB _ _ acc (hcols _ hmem).1 (hcols _ hmem).2


/-! ## The local result is the assembled block of result rows -/

theorem rowptrOf_nil : rowptrOf [] = [0] := rfl

theorem rowptrOf_length (lens : List Nat) : (rowptrOf lens).length = lens.length + 1 := by
  simp [rowptrOf]

theorem rowptrOf_concat (lens : List Nat) (x : Nat) :
    rowptrOf (lens ++ [x]) = rowptrOf lens ++ [lens.sum + x] := by
  unfold rowptrOf
  rw [List.length_append, List.length_singleton, List.range_succ, List.map_append]
  congr 1
  · apply List.map_congr_left
    intro i hi
    have hi' : i ≤ lens.length := Nat.le_of_lt_succ (List.mem_range.1 hi)
    rw [List.take_append_of_le_length hi']
  · simp

theorem assemble_nil : assemble [] = { values := [], colidx := [], rowptr := [0] } := rfl

theorem flattenStep_assemble (sparse : Nat → List (Int × ℚ)) (rows : List (List (Int × ℚ)))
    (i : Nat) :
    flattenStep sparse (assemble rows) i = assemble (rows ++ [row_elements (sparse i)]) := by
  unfold flattenStep assemble
  simp only [List.map_append, List.map_cons, List.map_nil, rowptrOf_concat, List.flatten_append,
    List.flatten_cons, List.flatten_nil, List.append_nil, List.length_append, List.length_map,
    List.length_flatten]

theorem foldl_flattenStep (sparse : Nat → List (Int × ℚ)) (n : Nat) :
    (List.range n).foldl (flattenStep sparse) { values := [], colidx := [], rowptr := [0] } =
      assemble ((List.range n).map (fun i => row_elements (sparse i))) := by
  induction n with
  | zero => rfl
  | succ n ih =>
    rw [List.range_succ, List.foldl_append, ih, List.map_append]
    simp only [List.foldl_cons, List.foldl_nil, List.map_cons, List.map_nil]
    exact flattenStep_assemble sparse _ n

theorem computeC_eq (B : CSR) (lrowptr : List Nat) (lcolidx : List Int) (lvalues : List ℚ) :
    computeC B lrowptr lcolidx lvalues =
      assemble ((List.range (local_rows_of lrowptr)).map
        (fun i => row_elements (local_C_sparse B lrowptr lcolidx lvalues i))) := by
  unfold computeC
  simp only
  split_ifs with h
  · exact foldl_flattenStep _ _
  · have h0 : local_rows_of lrowptr = 0 := by omega
    rw [h0]; rfl

theorem local_rows_eq (A : CSR) (N size p : Nat) (hp : p < size) :
    local_rows A N size p = rowcount N size p := by
  unfold local_rows local_rows_of
  by_cases h : 0 < rowcount N size p
  · rw [local_A_rowptr_eq A N size p hp h, local_rowptrs_length _ _ _ _ h]
    simp
  · have h0 : rowcount N size p = 0 := by omega
    rw [local_A_rowptr_nil A N size p h0, h0]
    rfl

theorem local_colidx_mem (A : CSR) (N size p : Nat) {c : Int}
    (h : c ∈ local_A_colidx A N size p) : c ∈ A.colidx :=
  List.mem_of_mem_drop (List.mem_of_mem_take h)

theorem local_A_values_length (A : CSR) (N size p : Nat) (hA : WellFormed A N)
    (hsize : 1 ≤ size) (hp : p < size) :
    (local_A_values A N size p).length = sendcount A.rowptr N size p := by
  have hos := offset_add_sendcount_le A N size p hA hsize hp
  simp only [local_A_values, scatterv, List.length_take, List.length_drop]
  rw [hA.2.2.2.2]; omega

theorem local_A_colidx_length (A : CSR) (N size p : Nat) (hA : WellFormed A N)
    (hsize : 1 ≤ size) (hp : p < size) :
    (local_A_colidx A N size p).length = sendcount A.rowptr N size p := by
  have hos := offset_add_sendcount_le A N size p hA hsize hp
  simp only [local_A_colidx, scatterv, List.length_take, List.length_drop]
  omega

theorem local_slice_bound (A : CSR) (N size p i : Nat) (hA : WellFormed A N) (hsize : 1 ≤ size)
    (hp : p < size) (hi : i < rowcount N size p) :
    (local_A_rowptr A N size p).getD i 0 +
      ((local_A_rowptr A N size p).getD (i + 1) 0 - (local_A_rowptr A N size p).getD i 0) ≤
      sendcount A.rowptr N size p := by
  have hpos : 0 < rowcount N size p := by omega
  have hle := rowoffset_add_rowcount_le N size hsize hp
  have m1 : A.rowptr.getD (rowoffset N size p) 0 ≤ A.rowptr.getD (rowoffset N size p + i) 0 :=
    hA.rowptr_mono (by omega) (by omega)
  have m2 : A.rowptr.getD (rowoffset N size p + i) 0 ≤
      A.rowptr.getD (rowoffset N size p + (i + 1)) 0 :=
    hA.rowptr_mono (by omega) (by omega)
  have m3 : A.rowptr.getD (rowoffset N size p + (i + 1)) 0 ≤
      A.rowptr.getD (rowoffset N size p + rowcount N size p) 0 :=
    hA.rowptr_mono (by omega) hle
  rw [local_A_rowptr_eq A N size p hp hpos, local_rowptrs_getD _ _ _ _ _ hpos (le_of_lt hi),
    local_rowptrs_getD _ _ _ _ (i + 1) hpos hi, sendcount_eq]
  omega

theorem local_C_eq (A B : CSR) (N M size p : Nat) (hA : WellFormed A N) (hcols : ColsBelow A M)
    (hB : WellFormed B M) (hsize : 1 ≤ size) (hp : p < size) :
    local_C A B N size p =
      assemble ((List.range' (rowoffset N size p) (rowcount N size p)).map (resultRow A B)) := by
  unfold local_C
  rw [computeC_eq]
  have hrows : local_rows_of (local_A_rowptr A N size p) = rowcount N size p :=
    local_rows_eq A N size p hp
  rw [hrows, List.range'_eq_map_range, List.map_map]
  congr 1
  apply List.map_congr_left
  intro i hi
  have hi' : i < rowcount N size p := List.mem_range.1 hi
  have hbound := local_slice_bound A N size p i hA hsize hp hi'
  simp only [Function.comp, resultRow]
  rw [local_C_sparse_eq B M hB _ _ _ i
    (by rw [local_A_colidx_length A N size p hA hsize hp]; exact hbound)
    (by rw [local_A_values_length A N size p hA hsize hp]; exact hbound)
    (fun c hc => hcols c (local_colidx_mem A N size p hc)),
    local_rowEntries A N size p i hA hsize hp hi']



/-! ## Gathering blocks at displacements -/

theorem writeAt_middle {α : Type} (data pre old post : List α) (h : data.length = old.length) :
    writeAt (pre ++ old ++ post) pre.length data = pre ++ data ++ post := by
  induction data generalizing pre old with
  | nil =>
    cases old with
    | nil => rfl
    | cons y ys => simp at h
  | cons x xs ih =>
    cases old with
    | nil => simp at h
    | cons y ys =>
      have hlen : xs.length = ys.length := by simpa using h
      have hset : (pre ++ y :: ys ++ post).set pre.length x = (pre ++ [x]) ++ ys ++ post := by
        rw [List.append_assoc, List.set_append_right _ _ (le_refl _)]
        simp
      have hl : (pre ++ [x]).length = pre.length + 1 := by simp
      rw [writeAt, hset, ← hl, ih (pre ++ [x]) ys hlen]
      simp

theorem range_flatMap_length_le {β : Type} (f : Nat → List β) {k size : Nat} (hk : k < size) :
    ((List.range k).flatMap f).length + (f k).length ≤ ((List.range size).flatMap f).length := by
  rw [range_flatMap_split f hk]
  simp only [List.length_append]
  omega

theorem gatherv_steps {α : Type} (recvbuf : List α) (send : Nat → List α)
    (counts displs : Nat → Nat) (size : Nat)
    (hc : ∀ p, p < size → counts p = (send p).length)
    (hd : ∀ p, p < size → displs p = ((List.range p).flatMap send).length)
    (hlen : recvbuf.length = ((List.range size).flatMap send).length) (k : Nat) (hk : k ≤ size) :
    (List.range k).foldl
        (fun buf p => writeAt buf (displs p) ((send p).take (counts p))) recvbuf =
      (List.range k).flatMap send ++ recvbuf.drop ((List.range k).flatMap send).length := by
  induction k with
  | zero => simp
  | succ k ih =>
    have hk' : k < size := hk
    have hb := range_flatMap_length_le send hk'
    rw [List.range_succ, List.foldl_append, ih (le_of_lt hk')]
    simp only [List.foldl_cons, List.foldl_nil]
    rw [hc k hk', List.take_length, hd k hk', List.flatMap_append, List.flatMap_singleton]
    have hsplit : recvbuf.drop ((List.range k).flatMap send).length =
        (recvbuf.drop ((List.range k).flatMap send).length).take (send k).length ++
          recvbuf.drop (((List.range k).flatMap send) ++ send k).length := by
      rw [List.length_append, ← List.drop_drop, List.take_append_drop]
    rw [hsplit, ← List.append_assoc, writeAt_middle]
    rw [List.length_take, List.length_drop]
    omega

theorem gatherv_eq_flatMap {α : Type} (recvbuf : List α) (send : Nat → List α)
    (counts displs : Nat → Nat) (size : Nat)
    (hc : ∀ p, p < size → counts p = (send p).length)
    (hd : ∀ p, p < size → displs p = ((List.range p).flatMap send).length)
    (hlen : recvbuf.length = ((List.range size).flatMap send).length) :
    gatherv recvbuf send counts displs size = (List.range size).flatMap send := by
  unfold gatherv
  rw [gatherv_steps recvbuf send counts displs size hc hd hlen size (le_refl _), ← hlen]
  simp

/-! ## The rebasing loop -/

theorem shiftBlock_succ (buf : List Nat) (s n d : Nat) :
    shiftBlock buf s (n + 1) d =
      (shiftBlock buf s n d).set (s + n) ((shiftBlock buf s n d).getD (s + n) 0 + d) := by
  unfold shiftBlock
  rw [List.range_succ, List.foldl_append]
  rfl

theorem shiftBlock_middle (blk pre post : List Nat) (d : Nat) :
    shiftBlock (pre ++ blk ++ post) pre.length blk.length d =
      pre ++ blk.map (· + d) ++ post := by
  induction blk using List.reverseRecOn generalizing post with
  | nil => simp [shiftBlock]
  | append_singleton ys y ih =>
    have e : pre ++ (ys ++ [y]) ++ post = pre ++ ys ++ (y :: post) := by simp
    have hl : (pre ++ List.map (· + d) ys).length = pre.length + ys.length := by simp
    rw [List.length_append, List.length_singleton, shiftBlock_succ, e, ih (y :: post), ← hl]
    simp only [List.getD_eq_getElem?_getD, List.map_append, List.map_cons, List.map_nil]
    rw [List.getElem?_append_right (le_refl _), List.set_append_right _ _ (le_refl _)]
    simp

theorem shift_blocks (send : Nat → List Nat) (d offs cnts : Nat → Nat) (size : Nat)
    (hc : ∀ p, p < size → cnts p = (send p).length)
    (ho : ∀ p, p < size → offs p = ((List.range p).flatMap send).length)
    (j : Nat) (hj : j + 1 ≤ size) :
    (List.range' 1 j).foldl (fun buf proc => shiftBlock buf (offs proc) (cnts proc) (d proc))
        ((List.range size).flatMap send) =
      send 0 ++ (List.range' 1 j).flatMap (fun p => (send p).map (· + d p)) ++
        (List.range' (j + 1) (size - (j + 1))).flatMap send := by
  induction j with
  | zero =>
    have := range_flatMap_split send (show 0 < size from hj)
    simpa using this
  | succ j ih =>
    have hj' : j + 1 < size := hj
    have hr : List.range' 1 (j + 1) = List.range' 1 j ++ [j + 1] := by
      rw [List.range'_concat]; simp [Nat.add_comm]
    have hlen : (send 0 ++ (List.range' 1 j).flatMap (fun p => (send p).map (· + d p))).length =
        ((List.range (j + 1)).flatMap send).length := by
      have h1 : List.range (j + 1) = 0 :: List.range' 1 j := by
        rw [List.range_eq_range', List.range'_succ]
      rw [h1]
      simp only [List.flatMap_cons, List.length_append, List.length_flatMap]
      congr 2
      apply List.map_congr_left
      intro p _
      simp
    have hsplit : (List.range' (j + 1) (size - (j + 1))).flatMap send =
        send (j + 1) ++ (List.range' (j + 1 + 1) (size - (j + 1 + 1))).flatMap send := by
      have h2 : size - (j + 1) = (size - (j + 1 + 1)) + 1 := by omega
      rw [h2, List.range'_succ, List.flatMap_cons]
    rw [hr, List.foldl_append, ih (le_of_lt hj'), List.flatMap_append]
    simp only [List.foldl_cons, List.foldl_nil, List.flatMap_cons, List.flatMap_nil,
      List.append_nil]
    rw [ho (j + 1) hj', hc (j + 1) hj', ← hlen, hsplit, ← List.append_assoc, shiftBlock_middle]
    simp [List.append_assoc]


/-! ## The merged arrays as concatenations of the local results -/

theorem assemble_lengths (rows : List (List (Int × ℚ))) :
    (assemble rows).colidx.length = (assemble rows).values.length ∧
      (assemble rows).rowptr.length = rows.length + 1 := by
  constructor
  · simp only [assemble, List.length_map]
  · simp only [assemble, rowptrOf_length, List.length_map]

theorem local_C_colidx_length (A B : CSR) (N size p : Nat) :
    (local_C A B N size p).colidx.length = (local_C A B N size p).values.length := by
  unfold local_C
  rw [computeC_eq]
  exact (assemble_lengths _).1

theorem local_C_rowptr_length (A B : CSR) (N size p : Nat) :
    (local_C A B N size p).rowptr.length = local_rows A N size p + 1 := by
  unfold local_C local_rows
  rw [computeC_eq, (assemble_lengths _).2]
  simp

theorem nnz_offsets_eq (A B : CSR) (N size p : Nat) :
    nnz_offsets A B N size p =
      ((List.range p).flatMap (fun q => (local_C A B N size q).values)).length := by
  induction p with
  | zero => rfl
  | succ p ih => rw [nnz_offsets, ih, range_flatMap_succ, List.length_append]; rfl

theorem flatMap_length_congr {α β : Type} (f : Nat → List α) (g : Nat → List β)
    (h : ∀ q, (f q).length = (g q).length) (l : List Nat) :
    (l.flatMap f).length = (l.flatMap g).length := by
  induction l with
  | nil => rfl
  | cons x xs ih => simp [List.flatMap_cons, h x, ih]

theorem total_nnz_eq (A B : CSR) (N size : Nat) (hsize : 1 ≤ size) :
    total_nnz A B N size =
      ((List.range size).flatMap (fun q => (local_C A B N size q).values)).length := by
  obtain ⟨k, rfl⟩ : ∃ k, size = k + 1 := ⟨size - 1, by omega⟩
  unfold total_nnz
  rw [Nat.add_sub_cancel, nnz_offsets_eq, range_flatMap_succ, List.length_append]
  rfl

theorem final_C_values_eq (A B : CSR) (N size : Nat) (hsize : 1 ≤ size) :
    final_C_values A B N size =
      (List.range size).flatMap (fun p => (local_C A B N size p).values) := by
  unfold final_C_values
  apply gatherv_eq_flatMap
  · intro p _; rfl
  · intro p _; exact nnz_offsets_eq A B N size p
  · rw [List.length_replicate]; exact total_nnz_eq A B N size hsize

theorem final_C_colidx_eq (A B : CSR) (N size : Nat) (hsize : 1 ≤ size) :
    final_C_colidx A B N size =
      (List.range size).flatMap (fun p => (local_C A B N size p).colidx) := by
  unfold final_C_colidx
  apply gatherv_eq_flatMap
  · intro p _; exact (local_C_colidx_length A B N size p).symm
  · intro p _
    rw [nnz_offsets_eq]
    exact flatMap_length_congr _ _ (fun q => (local_C_colidx_length A B N size q).symm) _
  · rw [List.length_replicate, total_nnz_eq A B N size hsize]
    exact flatMap_length_congr _ _ (fun q => (local_C_colidx_length A B N size q).symm) _

theorem send_rowptr_zero (A B : CSR) (N size : Nat) :
    send_rowptr A B N size 0 = (local_C A B N size 0).rowptr := by
  simp [send_rowptr]

theorem send_rowptr_succ (A B : CSR) (N size p : Nat) :
    send_rowptr A B N size (p + 1) = (local_C A B N size (p + 1)).rowptr.drop 1 := by
  have hlen := local_C_rowptr_length A B N size (p + 1)
  unfold send_rowptr nnz_offsets_on
  simp only [Nat.succ_ne_zero, if_false, Nat.add_zero]
  rw [range'_map_getD _ 0 1 _ (by omega), hlen]
  apply List.take_of_length_le
  rw [List.length_drop]; omega

theorem rowptr_counts_eq (A B : CSR) (N size p : Nat) :
    rowptr_counts A B N size p = (send_rowptr A B N size p).length := by
  cases p with
  | zero => rw [send_rowptr_zero]; rfl
  | succ p =>
    rw [send_rowptr_succ, List.length_drop, local_C_rowptr_length]
    simp [rowptr_counts, all_rows]

theorem rowptr_offsets_eq (A B : CSR) (N size p : Nat) :
    rowptr_offsets A B N size p =
      ((List.range p).flatMap (send_rowptr A B N size)).length := by
  induction p with
  | zero => rfl
  | succ p ih =>
    rw [rowptr_offsets, ih, rowptr_counts_eq, range_flatMap_succ, List.length_append]

theorem gathered_rowptr_eq (A B : CSR) (N size : Nat) (hsize : 1 ≤ size) :
    gathered_rowptr A B N size = (List.range size).flatMap (send_rowptr A B N size) := by
  unfold gathered_rowptr
  apply gatherv_eq_flatMap
  · intro p _; exact rowptr_counts_eq A B N size p
  · intro p _; exact rowptr_offsets_eq A B N size p
  · obtain ⟨k, rfl⟩ : ∃ k, size = k + 1 := ⟨size - 1, by omega⟩
    rw [List.length_replicate, total_rowptr_size, Nat.add_sub_cancel, rowptr_offsets_eq,
      rowptr_counts_eq, range_flatMap_succ, List.length_append]

theorem final_C_rowptr_eq (A B : CSR) (N size : Nat) (hsize : 1 ≤ size) :
    final_C_rowptr A B N size =
      send_rowptr A B N size 0 ++ (List.range' 1 (size - 1)).flatMap
        (fun p => (send_rowptr A B N size p).map (· + nnz_offsets A B N size p)) := by
  unfold final_C_rowptr
  rw [gathered_rowptr_eq A B N size hsize,
    shift_blocks (send_rowptr A B N size) (nnz_offsets A B N size) (rowptr_offsets A B N size)
      (rowptr_counts A B N size) size (fun p _ => rowptr_counts_eq A B N size p)
      (fun p _ => rowptr_offsets_eq A B N size p) (size - 1) (by omega)]
  have h0 : size - (size - 1 + 1) = 0 := by omega
  rw [h0]
  simp



/-! ## The merged result is the reference product -/

theorem range_add_split (a b : Nat) : List.range (a + b) = List.range a ++ List.range' a b := by
  have h := List.range'_append_1 0 a b
  rw [Nat.zero_add] at h
  rw [List.range_eq_range', List.range_eq_range', h, Nat.add_comm]

theorem flatMap_range_congr {β : Type} (f g : Nat → List β) (n : Nat)
    (h : ∀ p, p < n → f p = g p) : (List.range n).flatMap f = (List.range n).flatMap g := by
  unfold List.flatMap
  congr 1
  exact List.map_congr_left (fun p hp => h p (List.mem_range.1 hp))

theorem blocks_rows {β : Type} (R : Nat → β) (N size k : Nat) :
    (List.range k).flatMap (fun p => (List.range' (rowoffset N size p) (rowcount N size p)).map R)
      = (List.range (rowoffset N size k)).map R := by
  induction k with
  | zero => rfl
  | succ k ih => rw [range_flatMap_succ, ih, rowoffset, range_add_split, List.map_append]

theorem flatMap_assemble_values (blk : Nat → List (List (Int × ℚ))) (l : List Nat) :
    l.flatMap (fun p => (assemble (blk p)).values) = (l.flatMap blk).flatten.map Prod.snd := by
  induction l with
  | nil => rfl
  | cons x xs ih =>
    rw [List.flatMap_cons, List.flatMap_cons, ih, List.flatten_append, List.map_append]
    rfl

theorem flatMap_assemble_colidx (blk : Nat → List (List (Int × ℚ))) (l : List Nat) :
    l.flatMap (fun p => (assemble (blk p)).colidx) = (l.flatMap blk).flatten.map Prod.fst := by
  induction l with
  | nil => rfl
  | cons x xs ih =>
    rw [List.flatMap_cons, List.flatMap_cons, ih, List.flatten_append, List.map_append]
    rfl

theorem final_C_values_product (A B : CSR) (N M size : Nat) (hA : WellFormed A N)
    (hcols : ColsBelow A M) (hB : WellFormed B M) (hsize : 1 ≤ size) :
    final_C_values A B N size = (productCSR A B N).values := by
  rw [final_C_values_eq A B N size hsize,
    flatMap_range_congr _ _ size (fun p hp => congrArg CSR.values
      (local_C_eq A B N M size p hA hcols hB hsize hp)),
    flatMap_assemble_values, blocks_rows, rowoffset_size N size hsize]
  rfl

theorem final_C_colidx_product (A B : CSR) (N M size : Nat) (hA : WellFormed A N)
    (hcols : ColsBelow A M) (hB : WellFormed B M) (hsize : 1 ≤ size) :
    final_C_colidx A B N size = (productCSR A B N).colidx := by
  rw [final_C_colidx_eq A B N size hsize,
    flatMap_range_congr _ _ size (fun p hp => congrArg CSR.colidx
      (local_C_eq A B N M size p hA hcols hB hsize hp)),
    flatMap_assemble_colidx, blocks_rows, rowoffset_size N size hsize]
  rfl

theorem rowptrOf_ne_nil (lens : List Nat) : rowptrOf lens ≠ [] := by
  intro h
  have := rowptrOf_length lens
  rw [h] at this
  simp at this

theorem rowptrOf_append (l1 l2 : List Nat) :
    rowptrOf (l1 ++ l2) = rowptrOf l1 ++ ((rowptrOf l2).drop 1).map (· + l1.sum) := by
  induction l2 using List.reverseRecOn with
  | nil => simp [rowptrOf_nil]
  | append_singleton l x ih =>
    rw [← List.append_assoc, rowptrOf_concat, ih, rowptrOf_concat]
    obtain ⟨a, as, ha⟩ := List.exists_cons_of_ne_nil (rowptrOf_ne_nil l)
    rw [ha]
    simp [List.sum_append, Nat.add_comm, Nat.add_left_comm]

theorem nnz_offsets_product (A B : CSR) (N M size p : Nat) (hA : WellFormed A N)
    (hcols : ColsBelow A M) (hB : WellFormed B M) (hsize : 1 ≤ size) (hp : p ≤ size) :
    nnz_offsets A B N size p =
      (((List.range (rowoffset N size p)).map (resultRow A B)).map List.length).sum := by
  rw [nnz_offsets_eq,
    flatMap_range_congr _ _ p (fun q hq => congrArg CSR.values
      (local_C_eq A B N M size q hA hcols hB hsize (by omega))),
    flatMap_assemble_values, blocks_rows, List.length_map, List.length_flatten]

theorem final_C_rowptr_steps (A B : CSR) (N M size : Nat) (hA : WellFormed A N)
    (hcols : ColsBelow A M) (hB : WellFormed B M) (hsize : 1 ≤ size) (j : Nat)
    (hj : j + 1 ≤ size) :
    send_rowptr A B N size 0 ++ (List.range' 1 j).flatMap
        (fun p => (send_rowptr A B N size p).map (· + nnz_offsets A B N size p)) =
      rowptrOf (((List.range (rowoffset N size (j + 1))).map (resultRow A B)).map List.length) := by
  induction j with
  | zero =>
    rw [send_rowptr_zero, local_C_eq A B N M size 0 hA hcols hB hsize hj]
    simp [assemble, rowoffset, List.range_eq_range']
  | succ j ih =>
    have hj' : j + 1 < size := hj
    have hr : List.range' 1 (j + 1) = List.range' 1 j ++ [j + 1] := by
      rw [List.range'_concat]; simp [Nat.add_comm]
    rw [hr, List.flatMap_append, ← List.append_assoc, ih (le_of_lt hj'), List.flatMap_singleton,
      send_rowptr_succ, local_C_eq A B N M size (j + 1) hA hcols hB hsize hj',
      nnz_offsets_product A B N M size (j + 1) hA hcols hB hsize (le_of_lt hj')]
    conv_rhs => rw [rowoffset, range_add_split, List.map_append, List.map_append, rowptrOf_append]
    rfl

theorem final_C_rowptr_product (A B : CSR) (N M size : Nat) (hA : WellFormed A N)
    (hcols : ColsBelow A M) (hB : WellFormed B M) (hsize : 1 ≤ size) :
    final_C_rowptr A B N size = (productCSR A B N).rowptr := by
  rw [final_C_rowptr_eq A B N size hsize,
    final_C_rowptr_steps A B N M size hA hcols hB hsize (size - 1) (by omega)]
  have h : size - 1 + 1 = size := by omega
  rw [h, rowoffset_size N size hsize]
  rfl

/-- The merged result equals the reference product, whatever the number of workers. -/
theorem final_C_eq_product (A B : CSR) (N M size : Nat) (hA : WellFormed A N)
    (hcols : ColsBelow A M) (hB : WellFormed B M) (hsize : 1 ≤ size) :
    final_C A B N size = productCSR A B N := by
  have h1 := final_C_rowptr_product A B N M size hA hcols hB hsize
  have h2 := final_C_colidx_product A B N M size hA hcols hB hsize
  have h3 := final_C_values_product A B N M size hA hcols hB hsize
  unfold final_C
  rw [h1, h2, h3]



/-! ## Accumulators: keys and values -/

theorem mapAdd_keys (m : List (Int × ℚ)) (c : Int) (v : ℚ) :
    (mapAdd m c v).map Prod.fst =
      if c ∈ m.map Prod.fst then m.map Prod.fst else m.map Prod.fst ++ [c] := by
  induction m with
  | nil => simp [mapAdd]
  | cons x xs ih =>
    obtain ⟨c', w⟩ := x
    by_cases h : c' = c
    · simp [mapAdd, h]
    · have h' : ¬ c = c' := fun e => h e.symm
      simp only [mapAdd, if_neg h, List.map_cons, ih, List.mem_cons, h', false_or]
      split_ifs <;> simp

theorem mapAdd_nodup (m : List (Int × ℚ)) (c : Int) (v : ℚ) (h : (m.map Prod.fst).Nodup) :
    ((mapAdd m c v).map Prod.fst).Nodup := by
  rw [mapAdd_keys]
  split_ifs with hc
  · exact h
  · exact List.Nodup.append h (List.nodup_singleton c) (by
      intro a ha hb
      rw [List.mem_singleton] at hb
      exact hc (hb ▸ ha))

theorem valOf_mapAdd (m : List (Int × ℚ)) (c : Int) (v : ℚ) (c' : Int) :
    valOf (mapAdd m c v) c' = valOf m c' + if c = c' then v else 0 := by
  induction m with
  | nil =>
    by_cases h : c = c' <;> simp [mapAdd, valOf, h]
  | cons x xs ih =>
    obtain ⟨k, w⟩ := x
    by_cases hk : k = c
    · subst hk
      by_cases h : k = c'
      · simp [mapAdd, valOf, h]; ring
      · simp [mapAdd, valOf, h]
    · simp only [mapAdd, if_neg hk]
      unfold valOf at ih ⊢
      by_cases h : k = c'
      · simp only [List.filter_cons, h, decide_True, if_true, List.map_cons, List.sum_cons]
        rw [ih]; ring
      · simp only [List.filter_cons, h, decide_False, Bool.false_eq_true, if_false]
        rw [ih]

theorem foldl_mapAdd_nodup (row : List (Int × ℚ)) (a : ℚ) (acc : List (Int × ℚ))
    (h : (acc.map Prod.fst).Nodup) :
    ((row.foldl (fun acc cb => mapAdd acc cb.1 (a * cb.2)) acc).map Prod.fst).Nodup := by
  induction row generalizing acc with
  | nil => exact h
  | cons x xs ih => exact ih _ (mapAdd_nodup acc _ _ h)

theorem valOf_foldl_mapAdd (row : List (Int × ℚ)) (a : ℚ) (acc : List (Int × ℚ)) (c : Int) :
    valOf (row.foldl (fun acc cb => mapAdd acc cb.1 (a * cb.2)) acc) c =
      valOf acc c + ((row.filter (fun cb => decide (cb.1 = c))).map (fun cb => a * cb.2)).sum := by
  induction row generalizing acc with
  | nil => simp
  | cons x xs ih =>
    rw [List.foldl_cons, ih, valOf_mapAdd]
    by_cases h : x.1 = c
    · simp [List.filter_cons, h]; ring
    · simp [List.filter_cons, h]

theorem accumEntries_nodup (B : CSR) (entries : List (Int × ℚ)) :
    ((accumEntries B entries).map Prod.fst).Nodup := by
  unfold accumEntries
  suffices h : ∀ acc : List (Int × ℚ), (acc.map Prod.fst).Nodup →
      ((entries.foldl (fun acc ka => (rowEntries B ka.1.toNat).foldl
        (fun acc cb => mapAdd acc cb.1 (ka.2 * cb.2)) acc) acc).map Prod.fst).Nodup from
    h [] List.nodup_nil
  induction entries with
  | nil => intro acc h; exact h
  | cons x xs ih => intro acc h; exact ih _ (foldl_mapAdd_nodup _ _ acc h)

theorem valOf_accumEntries (A B : CSR) (i : Nat) (c : Int) :
    valOf (accumEntries B (rowEntries A i)) c = S A B i c := by
  unfold accumEntries S
  suffices h : ∀ (entries acc : List (Int × ℚ)),
      valOf (entries.foldl (fun acc ka => (rowEntries B ka.1.toNat).foldl
        (fun acc cb => mapAdd acc cb.1 (ka.2 * cb.2)) acc) acc) c =
      valOf acc c + (entries.map (fun ka =>
        (((rowEntries B ka.1.toNat).filter (fun cb => decide (cb.1 = c))).map
          (fun cb => ka.2 * cb.2)).sum)).sum by
    rw [h]; simp [valOf]
  intro entries
  induction entries with
  | nil => intro acc; simp
  | cons x xs ih =>
    intro acc
    rw [List.foldl_cons, ih, valOf_foldl_mapAdd, List.map_cons, List.sum_cons]
    ring

theorem valOf_of_mem (m : List (Int × ℚ)) (h : (m.map Prod.fst).Nodup) {c : Int} {v : ℚ}
    (hm : (c, v) ∈ m) : valOf m c = v := by
  induction m with
  | nil => simp at hm
  | cons x xs ih =>
    obtain ⟨k, w⟩ := x
    rw [List.map_cons, List.nodup_cons] at h
    rcases List.mem_cons.1 hm with heq | hmem
    · obtain ⟨rfl, rfl⟩ := Prod.mk.inj heq
      have hnone : xs.filter (fun e => decide (e.1 = c)) = [] := by
        rw [List.filter_eq_nil_iff]
        intro e he hdec
        exact h.1 (List.mem_map.2 ⟨e, he, of_decide_eq_true hdec⟩)
      simp [valOf, List.filter_cons, hnone]
    · have hne : k ≠ c := fun e => h.1 (e ▸ List.mem_map.2 ⟨(c, v), hmem, rfl⟩)
      have := ih h.2 hmem
      unfold valOf at this ⊢
      simp only [List.filter_cons, hne, decide_False, Bool.false_eq_true, if_false]
      exact this

theorem valOf_of_not_mem (m : List (Int × ℚ)) {c : Int} (h : c ∉ m.map Prod.fst) :
    valOf m c = 0 := by
  have hnone : m.filter (fun e => decide (e.1 = c)) = [] := by
    rw [List.filter_eq_nil_iff]
    intro e he hdec
    exact h (List.mem_map.2 ⟨e, he, of_decide_eq_true hdec⟩)
  simp [valOf, hnone]



/-! ## Pruned and sorted rows -/

theorem mem_row_elements (m : List (Int × ℚ)) (x : Int × ℚ) :
    x ∈ row_elements m ↔ x ∈ m ∧ eps < |x.2| := by
  unfold row_elements
  rw [List.mem_insertionSort, List.mem_filter]
  simp

theorem row_elements_nodup (m : List (Int × ℚ)) (h : (m.map Prod.fst).Nodup) :
    ((row_elements m).map Prod.fst).Nodup := by
  unfold row_elements
  have hp : List.Perm
      (((m.filter (fun elem => decide (eps < |elem.2|))).insertionSort pairLe).map Prod.fst)
      ((m.filter (fun elem => decide (eps < |elem.2|))).map Prod.fst) :=
    (List.perm_insertionSort pairLe _).map _
  rw [hp.nodup_iff]
  exact h.sublist ((List.filter_sublist m).map _)

theorem row_elements_sorted (m : List (Int × ℚ)) (h : (m.map Prod.fst).Nodup) :
    ((row_elements m).map Prod.fst).Pairwise (· < ·) := by
  have hn := row_elements_nodup m h
  have hs : (row_elements m).Pairwise pairLe := List.sorted_insertionSort pairLe _
  rw [List.Nodup, List.pairwise_map] at hn
  rw [List.pairwise_map]
  refine (hs.and hn).imp ?_
  rintro a b ⟨hle, hne⟩
  rcases hle with h1 | ⟨h1, _⟩
  · exact h1
  · exact absurd h1 hne

theorem resultRow_sorted (A B : CSR) (r : Nat) :
    ((resultRow A B r).map Prod.fst).Pairwise (· < ·) :=
  row_elements_sorted _ (accumEntries_nodup B _)

theorem mem_resultRow (A B : CSR) (i : Nat) (c : Int) (v : ℚ) :
    (c, v) ∈ resultRow A B i ↔ eps < |S A B i c| ∧ v = S A B i c := by
  unfold resultRow
  rw [mem_row_elements]
  have hnd := accumEntries_nodup B (rowEntries A i)
  have hval := valOf_accumEntries A B i c
  constructor
  · rintro ⟨hm, he⟩
    have hv := valOf_of_mem _ hnd hm
    rw [hval] at hv
    exact ⟨by rw [hv]; exact he, hv.symm⟩
  · rintro ⟨he, rfl⟩
    have hkey : c ∈ (accumEntries B (rowEntries A i)).map Prod.fst := by
      by_contra hc
      have h0 := valOf_of_not_mem _ hc
      rw [hval] at h0
      rw [h0] at he
      simp [eps] at he
      norm_num at he
    obtain ⟨⟨c', w⟩, hmem, hc'⟩ := List.mem_map.1 hkey
    simp only at hc'
    subst hc'
    have hv := valOf_of_mem _ hnd hmem
    rw [hval] at hv
    subst hv
    exact ⟨hmem, he⟩

/-! ## Rows of an assembled matrix -/

theorem rowptrOf_getD (lens : List Nat) (i : Nat) (hi : i ≤ lens.length) :
    (rowptrOf lens).getD i 0 = (lens.take i).sum := by
  unfold rowptrOf
  have h : i < lens.length + 1 := by omega
  simp [List.getD_eq_getElem?_getD, List.getElem?_range h]

theorem flatten_slice {α : Type} (rows : List (List α)) (r : Nat) (hr : r < rows.length) :
    (rows.flatten.drop ((rows.map List.length).take r).sum).take
      (((rows.map List.length).take (r + 1)).sum - ((rows.map List.length).take r).sum)
      = rows.getD r [] := by
  induction rows generalizing r with
  | nil => simp at hr
  | cons x xs ih =>
    cases r with
    | zero => simp
    | succ r =>
      have hr' : r < xs.length := by simpa using hr
      have := ih r hr'
      simp only [List.map_cons, List.take_succ_cons, List.sum_cons, List.flatten_cons,
        List.getD_cons_succ]
      rw [Nat.add_sub_add_left, List.drop_append]
      exact this

theorem assemble_zip (rows : List (List (Int × ℚ))) :
    (assemble rows).colidx.zip (assemble rows).values = rows.flatten := by
  simp only [assemble]
  rw [List.zip_map']
  simp

theorem rowEntries_assemble (rows : List (List (Int × ℚ))) (r : Nat) (hr : r < rows.length) :
    rowEntries (assemble rows) r = rows.getD r [] := by
  unfold rowEntries
  rw [assemble_zip]
  have h1 : (assemble rows).rowptr.getD r 0 = ((rows.map List.length).take r).sum :=
    rowptrOf_getD _ r (by simp; omega)
  have h2 : (assemble rows).rowptr.getD (r + 1) 0 = ((rows.map List.length).take (r + 1)).sum :=
    rowptrOf_getD _ (r + 1) (by simp; omega)
  rw [h1, h2]
  exact flatten_slice rows r hr

theorem rowEntries_product (A B : CSR) (N i : Nat) (hi : i < N) :
    rowEntries (productCSR A B N) i = resultRow A B i := by
  unfold productCSR
  rw [rowEntries_assemble _ i (by simpa using hi)]
  simp [List.getD_eq_getElem?_getD, List.getElem?_range hi]



/-! ## Structure of the reference product -/

theorem sum_take_le (l : List Nat) {i j : Nat} (h : i ≤ j) : (l.take i).sum ≤ (l.take j).sum := by
  obtain ⟨k, rfl⟩ := Nat.exists_eq_add_of_le h
  rw [List.take_add, List.sum_append]
  exact Nat.le_add_right _ _

theorem rowptrOf_pairwise (lens : List Nat) : (rowptrOf lens).Pairwise (· ≤ ·) := by
  unfold rowptrOf
  rw [List.pairwise_map]
  exact (List.pairwise_lt_range _).imp (fun h => sum_take_le lens (le_of_lt h))

theorem assemble_wellFormed (rows : List (List (Int × ℚ))) :
    WellFormed (assemble rows) rows.length := by
  refine ⟨?_, ?_, ?_, ?_, ?_⟩
  · simp [assemble, rowptrOf_length]
  · have := rowptrOf_getD (rows.map List.length) 0 (Nat.zero_le _)
    simpa [assemble] using this
  · exact rowptrOf_pairwise _
  · have := rowptrOf_getD (rows.map List.length) rows.length (by simp)
    simp only [assemble] at this ⊢
    rw [this, List.length_map, List.length_flatten]
    congr 1
    exact List.take_of_length_le (by simp)
  · simp only [assemble, List.length_map]

theorem productCSR_wellFormed (A B : CSR) (N : Nat) : WellFormed (productCSR A B N) N := by
  have := assemble_wellFormed ((List.range N).map (resultRow A B))
  simpa [productCSR] using this

theorem rowEntries_map_fst (M : CSR) (r : Nat) (h : M.values.length = M.colidx.length) :
    (rowEntries M r).map Prod.fst =
      (M.colidx.drop (M.rowptr.getD r 0)).take (M.rowptr.getD (r + 1) 0 - M.rowptr.getD r 0) := by
  unfold rowEntries
  rw [List.map_take, List.map_drop, List.map_fst_zip _ _ (le_of_eq h.symm)]



/-! ## End-to-end statements -/

/-- C1. End-to-end correctness over exact arithmetic: for every worker count `size ≥ 1`,
every well-formed `A` (`N` rows, stored column indices in `[0, M)`) and well-formed `B`
(`M` rows), rows sorted or not, row `i < N` of the merged result holds at most one entry per
column, and `(c, v)` is a stored entry of that row exactly when `|S(i, c)| > 1e-12` and
`v = S(i, c)`. -/
theorem product_correct (A B : CSR) (N M size : Nat) (hA : WellFormed A N)
    (hcols : ColsBelow A M) (hB : WellFormed B M) (hsize : 1 ≤ size) (i : Nat) (hi : i < N) :
    ((rowEntries (final_C A B N size) i).map Prod.fst).Nodup ∧
    ∀ c v, (c, v) ∈ rowEntries (final_C A B N size) i ↔ (eps < |S A B i c| ∧ v = S A B i c) := by
  rw [final_C_eq_product A B N M size hA hcols hB hsize, rowEntries_product A B N i hi]
  refine ⟨?_, fun c v => mem_resultRow A B i c v⟩
  have hs := resultRow_sorted A B i
  exact hs.imp (fun h => ne_of_lt h)

/-- C1 on a pair of unsorted matrices, three workers, row 2. -/
theorem product_correct_witness :
    WellFormed unsortedA 4 ∧ ColsBelow unsortedA 3 ∧ WellFormed unsortedB 3 ∧ 1 ≤ 3 ∧ 2 < 4 ∧
    (((rowEntries (final_C unsortedA unsortedB 4 3) 2).map Prod.fst).Nodup ∧
    ∀ c v, (c, v) ∈ rowEntries (final_C unsortedA unsortedB 4 3) 2 ↔
      (eps < |S unsortedA unsortedB 2 c| ∧ v = S unsortedA unsortedB 2 c)) :=
  ⟨by decide, by decide, by decide, by decide, by decide,
    product_correct unsortedA unsortedB 4 3 3 (by decide) (by decide) (by decide) (by decide) 2
      (by decide)⟩

/-- C2. Partition invariance: for every well-formed input and every worker count
`size ≥ 1` (in particular `1 ≤ size ≤ N + 5`, with `size > N` included) the merged result is
the one a single worker produces. -/
theorem partition_invariance (A B : CSR) (N M size : Nat) (hA : WellFormed A N)
    (hcols : ColsBelow A M) (hB : WellFormed B M) (hsize : 1 ≤ size) :
    final_C A B N size = final_C A B N 1 := by
  have h1 : final_C A B N size = productCSR A B N :=
    final_C_eq_product A B N M size hA hcols hB hsize
  have h2 : final_C A B N 1 = productCSR A B N :=
    final_C_eq_product A B N M 1 hA hcols hB (le_refl 1)
  exact h1.trans h2.symm

/-- C2 on a pair of unsorted matrices with 4 rows and 9 workers. -/
theorem partition_invariance_witness :
    WellFormed unsortedA 4 ∧ ColsBelow unsortedA 3 ∧ WellFormed unsortedB 3 ∧ 1 ≤ 9 ∧
    final_C unsortedA unsortedB 4 9 = final_C unsortedA unsortedB 4 1 :=
  ⟨by decide, by decide, by decide, by decide,
    partition_invariance unsortedA unsortedB 4 3 9 (by decide) (by decide) (by decide)
      (by decide)⟩

/-- C3. Structural validity: for every well-formed input and worker count `size ≥ 1`, the
merged row pointer has `N + 1` entries, starts at 0, is non-decreasing, ends with the common
length of the merged column and value arrays, and inside every row slice the column indices
are strictly ascending. -/
theorem result_structure (A B : CSR) (N M size : Nat) (hA : WellFormed A N)
    (hcols : ColsBelow A M) (hB : WellFormed B M) (hsize : 1 ≤ size) :
    (final_C_rowptr A B N size).length = N + 1 ∧
    (final_C_rowptr A B N size).getD 0 0 = 0 ∧
    (final_C_rowptr A B N size).Pairwise (· ≤ ·) ∧
    (final_C_rowptr A B N size).getD N 0 = (final_C_colidx A B N size).length ∧
    (final_C_colidx A B N size).length = (final_C_values A B N size).length ∧
    ∀ r, r < N →
      (((final_C_colidx A B N size).drop ((final_C_rowptr A B N size).getD r 0)).take
        ((final_C_rowptr A B N size).getD (r + 1) 0 -
          (final_C_rowptr A B N size).getD r 0)).Pairwise (· < ·) := by
  rw [final_C_rowptr_product A B N M size hA hcols hB hsize,
    final_C_colidx_product A B N M size hA hcols hB hsize,
    final_C_values_product A B N M size hA hcols hB hsize]
  obtain ⟨h1, h2, h3, h4, h5⟩ := productCSR_wellFormed A B N
  refine ⟨h1, h2, h3, h4, h5.symm, ?_⟩
  intro r hr
  rw [← rowEntries_map_fst (productCSR A B N) r h5, rowEntries_product A B N r hr]
  exact resultRow_sorted A B r

/-- C3 on a pair of unsorted matrices, three workers. -/
theorem result_structure_witness :
    WellFormed unsortedA 4 ∧ ColsBelow unsortedA 3 ∧ WellFormed unsortedB 3 ∧ 1 ≤ 3 ∧
    ((final_C_rowptr unsortedA unsortedB 4 3).length = 4 + 1 ∧
    (final_C_rowptr unsortedA unsortedB 4 3).getD 0 0 = 0 ∧
    (final_C_rowptr unsortedA unsortedB 4 3).Pairwise (· ≤ ·) ∧
    (final_C_rowptr unsortedA unsortedB 4 3).getD 4 0 =
      (final_C_colidx unsortedA unsortedB 4 3).length ∧
    (final_C_colidx unsortedA unsortedB 4 3).length =
      (final_C_values unsortedA unsortedB 4 3).length ∧
    ∀ r, r < 4 →
      (((final_C_colidx unsortedA unsortedB 4 3).drop
          ((final_C_rowptr unsortedA unsortedB 4 3).getD r 0)).take
        ((final_C_rowptr unsortedA unsortedB 4 3).getD (r + 1) 0 -
          (final_C_rowptr unsortedA unsortedB 4 3).getD r 0)).Pairwise (· < ·)) :=
  ⟨by decide, by decide, by decide, by decide,
    result_structure unsortedA unsortedB 4 3 3 (by decide) (by decide) (by decide) (by decide)⟩



/-! ## A well-formed matrix is the assembly of its rows -/

theorem flatten_rowEntries (A : CSR) (N : Nat) (hA : WellFormed A N) (k : Nat) (hk : k ≤ N) :
    ((List.range k).map (rowEntries A)).flatten =
      (A.colidx.zip A.values).take (A.rowptr.getD k 0) := by
  induction k with
  | zero => rw [hA.2.1]; rfl
  | succ k ih =>
    have hm : A.rowptr.getD k 0 ≤ A.rowptr.getD (k + 1) 0 := hA.rowptr_mono (Nat.le_succ k) hk
    have e : A.rowptr.getD (k + 1) 0 =
        A.rowptr.getD k 0 + (A.rowptr.getD (k + 1) 0 - A.rowptr.getD k 0) := by omega
    rw [List.range_succ, List.map_append, List.flatten_append, ih (by omega)]
    conv_rhs => rw [e, List.take_add]
    simp [rowEntries]

theorem zip_length (A : CSR) (N : Nat) (hA : WellFormed A N) :
    (A.colidx.zip A.values).length = A.colidx.length := by
  rw [List.length_zip, hA.2.2.2.2, Nat.min_self]

theorem assemble_rowEntries (A : CSR) (N : Nat) (hA : WellFormed A N) :
    assemble ((List.range N).map (rowEntries A)) = A := by
  have hflat : ((List.range N).map (rowEntries A)).flatten = A.colidx.zip A.values := by
    rw [flatten_rowEntries A N hA N (le_refl _), hA.2.2.2.1]
    exact List.take_of_length_le (by rw [zip_length A N hA])
  have hrp : rowptrOf (((List.range N).map (rowEntries A)).map List.length) = A.rowptr := by
    apply List.ext_getElem
    · rw [rowptrOf_length, hA.1]; simp
    · intro i h1 h2
      have hi : i ≤ N := by
        rw [rowptrOf_length] at h1
        simp at h1
        omega
      have hg := rowptrOf_getD (((List.range N).map (rowEntries A)).map List.length) i
        (by simpa using hi)
      rw [List.getD_eq_getElem?_getD, List.getElem?_eq_getElem h1] at hg
      have hle := hA.rowptr_le_length hi
      simp only [Option.getD_some] at hg
      rw [hg, ← List.map_take, ← List.map_take, List.take_range, Nat.min_eq_left hi,
        ← List.length_flatten, flatten_rowEntries A N hA i hi, List.length_take,
        zip_length A N hA, Nat.min_eq_left hle, List.getD_eq_getElem?_getD,
        List.getElem?_eq_getElem h2]
      rfl
  obtain ⟨rp, ci, vs⟩ := A
  simp only [assemble, hflat, hrp]
  rw [List.map_fst_zip _ _ (le_of_eq hA.2.2.2.2.symm), List.map_snd_zip _ _ (le_of_eq hA.2.2.2.2)]

/-! ## Multiplying by the identity -/

theorem rowEntries_identity (M k : Nat) (hk : k < M) :
    rowEntries (identityCSR M) k = [((k : Int), 1)] := by
  unfold rowEntries identityCSR
  have h1 : (List.range (M + 1)).getD k 0 = k := by
    rw [List.getD_eq_getElem?_getD, List.getElem?_range (show k < M + 1 by omega)]; rfl
  have h2 : (List.range (M + 1)).getD (k + 1) 0 = k + 1 := by
    rw [List.getD_eq_getElem?_getD, List.getElem?_range (show k + 1 < M + 1 by omega)]; rfl
  simp only [h1, h2, Nat.add_sub_cancel_left]
  apply List.ext_getElem?
  intro i
  cases i with
  | zero =>
    rw [List.getElem?_take_of_lt Nat.zero_lt_one, List.getElem?_drop, Nat.add_zero,
      List.zip_eq_zipWith, List.getElem?_zipWith, List.getElem?_map, List.getElem?_range hk,
      List.getElem?_replicate_of_lt hk]
    rfl
  | succ i =>
    rw [List.getElem?_eq_none (by rw [List.length_take]; omega),
      List.getElem?_eq_none (by rw [List.length_singleton]; omega)]

theorem mapAdd_of_not_mem (m : List (Int × ℚ)) (c : Int) (v : ℚ) (h : c ∉ m.map Prod.fst) :
    mapAdd m c v = m ++ [(c, 0 + v)] := by
  induction m with
  | nil => rfl
  | cons x xs ih =>
    obtain ⟨c', w⟩ := x
    rw [List.map_cons, List.mem_cons, not_or] at h
    have hne : ¬ c' = c := fun e => h.1 e.symm
    simp only [mapAdd, if_neg hne, ih h.2, List.cons_append]

theorem accum_identity (M : Nat) (entries acc : List (Int × ℚ))
    (hcols : ∀ e ∈ entries, 0 ≤ e.1 ∧ e.1 < (M : Int))
    (hnd : ((acc ++ entries).map Prod.fst).Nodup) :
    entries.foldl (fun acc ka => (rowEntries (identityCSR M) ka.1.toNat).foldl
      (fun acc cb => mapAdd acc cb.1 (ka.2 * cb.2)) acc) acc = acc ++ entries := by
  induction entries generalizing acc with
  | nil => simp
  | cons x xs ih =>
    obtain ⟨k, a⟩ := x
    have hk := hcols (k, a) (List.mem_cons_self _ _)
    simp only at hk
    have hlt : k.toNat < M := by omega
    have hcast : ((k.toNat : Nat) : Int) = k := Int.toNat_of_nonneg hk.1
    have hnot : k ∉ acc.map Prod.fst := by
      intro hmem
      rw [List.map_append, List.map_cons] at hnd
      have := (List.nodup_append.1 hnd).2.2
      exact this hmem (List.mem_cons_self _ _)
    have hnd' : ((acc ++ [(k, a)] ++ xs).map Prod.fst).Nodup := by
      simpa [List.append_assoc] using hnd
    rw [List.foldl_cons, rowEntries_identity M k.toNat hlt]
    simp only [List.foldl_cons, List.foldl_nil, hcast]
    rw [mapAdd_of_not_mem acc k _ hnot, mul_one, zero_add,
      ih (acc ++ [(k, a)]) (fun e he => hcols e (List.mem_cons_of_mem _ he)) hnd']
    simp

theorem row_elements_of_sorted (m : List (Int × ℚ)) (hs : (m.map Prod.fst).Pairwise (· < ·))
    (hbig : ∀ e ∈ m, eps < |e.2|) : row_elements m = m := by
  unfold row_elements
  have hf : m.filter (fun elem => decide (eps < |elem.2|)) = m := by
    rw [List.filter_eq_self]
    intro e he
    exact decide_eq_true (hbig e he)
  rw [hf]
  apply List.Sorted.insertionSort_eq
  rw [List.pairwise_map] at hs
  exact hs.imp (fun h => Or.inl h)

theorem rowEntries_subset (A : CSR) (r : Nat) {e : Int × ℚ} (he : e ∈ rowEntries A r) :
    e.1 ∈ A.colidx ∧ e.2 ∈ A.values := by
  have hz : e ∈ A.colidx.zip A.values := List.mem_of_mem_drop (List.mem_of_mem_take he)
  obtain ⟨c, v⟩ := e
  exact ⟨(List.of_mem_zip hz).1, (List.of_mem_zip hz).2⟩

theorem resultRow_identity (A : CSR) (M r : Nat) (hcols : ColsBelow A M)
    (hs : ((rowEntries A r).map Prod.fst).Pairwise (· < ·))
    (hbig : ∀ v ∈ A.values, eps < |v|) :
    resultRow A (identityCSR M) r = rowEntries A r := by
  unfold resultRow accumEntries
  rw [accum_identity M (rowEntries A r) []
    (fun e he => hcols e.1 (rowEntries_subset A r he).1)
    (by simpa using hs.imp (fun h => ne_of_lt h))]
  exact row_elements_of_sorted _ hs (fun e he => hbig e.2 (rowEntries_subset A r he).2)

theorem identityCSR_wellFormed (M : Nat) : WellFormed (identityCSR M) M := by
  refine ⟨?_, ?_, ?_, ?_, ?_⟩
  · simp only [identityCSR, List.length_range]
  · simp only [identityCSR]
    rw [List.getD_eq_getElem?_getD, List.getElem?_range (Nat.succ_pos M)]; rfl
  · exact (List.pairwise_lt_range _).imp (fun h => le_of_lt h)
  · simp only [identityCSR, List.length_map, List.length_range]
    rw [List.getD_eq_getElem?_getD, List.getElem?_range (Nat.lt_succ_self M)]; rfl
  · simp only [identityCSR, List.length_map, List.length_range, List.length_replicate]



/-! ## Concrete scenarios -/

/-- C4. Multiplying by the identity returns `A`: for every worker count `size ≥ 1`, every
`M`, and every well-formed `A` whose column indices lie in `[0, M)` and are strictly
ascending within each row and whose stored values all have magnitude above `1e-12`, the
merged product of `A` with the `M × M` identity has exactly the row pointer, column indices
and values of `A`. -/
theorem identity_product (A : CSR) (N M size : Nat) (hA : WellFormed A N)
    (hcols : ColsBelow A M)
    (hsorted : ∀ r, r < N → ((rowEntries A r).map Prod.fst).Pairwise (· < ·))
    (hbig : ∀ v ∈ A.values, eps < |v|) (hsize : 1 ≤ size) :
    final_C A (identityCSR M) N size = A := by
  rw [final_C_eq_product A (identityCSR M) N M size hA hcols (identityCSR_wellFormed M) hsize]
  unfold productCSR
  have hrows : (List.range N).map (resultRow A (identityCSR M)) =
      (List.range N).map (rowEntries A) :=
    List.map_congr_left (fun r hr =>
      resultRow_identity A M r hcols (hsorted r (List.mem_range.1 hr)) hbig)
  rw [hrows]
  exact assemble_rowEntries A N hA

/-- Every stored value of `specA` exceeds the threshold. -/
theorem specA_big : ∀ v ∈ specA.values, eps < |v| := by
  intro v hv
  simp only [specA, List.mem_cons, List.mem_singleton, List.not_mem_nil, or_false] at hv
  rcases hv with rfl | rfl | rfl <;> norm_num [eps]

/-- C4 on `A = [[1, 2], [0, 3]]` and the `2 × 2` identity: the product is `A` (three
workers), and for every worker count the output lines are `2 0 1 1 2` and `1 1 3`, given
that the stream prints the doubles 1, 2, 3 as `1`, `2`, `3`. -/
theorem identity_product_witness :
    WellFormed specA 2 ∧ ColsBelow specA 2 ∧
    (∀ r, r < 2 → ((rowEntries specA r).map Prod.fst).Pairwise (· < ·)) ∧
    (∀ v ∈ specA.values, eps < |v|) ∧ 1 ≤ 3 ∧
    final_C specA (identityCSR 2) 2 3 = specA ∧
    (∀ size, 1 ≤ size → ∀ fmt : ℚ → String, fmt 1 = "1" → fmt 2 = "2" → fmt 3 = "3" →
      writeResult fmt (final_C specA (identityCSR 2) 2 size) 2 = ["2 0 1 1 2", "1 1 3"]) :=
  ⟨by decide, by decide, by decide, specA_big, by decide,
    identity_product specA 2 2 3 (by decide) (by decide) (by decide) specA_big (by decide),
    fun size hsize fmt h1 h2 h3 => by
      rw [identity_product specA 2 2 size (by decide) (by decide) (by decide) specA_big hsize]
      simp [writeResult, writeRow, specA, List.range, List.range.loop, List.range', h1, h2, h3]
      decide⟩


/-- The reference product of `[[5]]` and the explicit zero has one empty row. -/
theorem productCSR_five_zero : productCSR fiveA zeroB 1 = ⟨[0, 0], [], []⟩ := by
  have hrow : resultRow fiveA zeroB 0 = [] := by
    have h1 : rowEntries fiveA 0 = [(0, 5)] := by decide
    have h2 : rowEntries zeroB 0 = [(0, 0)] := by decide
    unfold resultRow accumEntries
    rw [h1]
    simp only [List.foldl_cons, List.foldl_nil]
    have h3 : rowEntries zeroB (Int.toNat 0) = [(0, 0)] := h2
    rw [h3]
    simp [mapAdd, row_elements, eps]
  unfold productCSR
  simp only [List.range, List.range.loop, List.map_cons, List.map_nil, hrow]
  rfl

/-- C5. Explicit zero is pruned: for every worker count `size ≥ 1`, with `A = [[5]]` and `B`
the `1 × 1` matrix storing the value 0 at column 0, the merged row pointer is `[0, 0]`, no
column index and no value is stored, and the output is the single line `0`. -/
theorem explicit_zero_pruned (size : Nat) (hsize : 1 ≤ size) :
    final_C_rowptr fiveA zeroB 1 size = [0, 0] ∧
    final_C_colidx fiveA zeroB 1 size = [] ∧
    final_C_values fiveA zeroB 1 size = [] ∧
    ∀ fmt : ℚ → String, writeResult fmt (final_C fiveA zeroB 1 size) 1 = ["0"] := by
  have h : final_C fiveA zeroB 1 size = ⟨[0, 0], [], []⟩ := by
    rw [final_C_eq_product fiveA zeroB 1 1 size (by decide) (by decide) (by decide) hsize]
    exact productCSR_five_zero
  refine ⟨congrArg CSR.rowptr h, congrArg CSR.colidx h, congrArg CSR.values h, ?_⟩
  intro fmt
  rw [h]
  rfl

/-- C5 with four workers. -/
theorem explicit_zero_pruned_witness :
    1 ≤ 4 ∧
    (final_C_rowptr fiveA zeroB 1 4 = [0, 0] ∧
    final_C_colidx fiveA zeroB 1 4 = [] ∧
    final_C_values fiveA zeroB 1 4 = [] ∧
    ∀ fmt : ℚ → String, writeResult fmt (final_C fiveA zeroB 1 4) 1 = ["0"]) :=
  ⟨by decide, explicit_zero_pruned 4 (by decide)⟩

/-! ## More workers than rows -/

/-- A worker without rows has the empty local result with `rowptr = [0]`. -/
theorem local_C_of_no_rows (A B : CSR) (N size p : Nat) (h : rowcount N size p = 0) :
    local_C A B N size p = ⟨[0], [], []⟩ := by
  unfold local_C
  rw [local_A_rowptr_nil A N size p h]
  rfl

/-- C10 fails at `N = 0`: with one worker and no rows, worker 0 is a trailing worker
(`rowcount 0 = 0`, local result `rowptr = [0]`), yet the coordinator expects
`rowptr_counts 0 = 1` entry from it and the merged row pointer `[0]` is exactly the
row pointer that worker 0 sends. -/
theorem trailing_worker_zero_counterexample :
    0 < 1 ∧ 0 ≤ 0 ∧ rowcount 0 1 0 = 0 ∧
    local_C emptyCSR emptyCSR 0 1 0 = ⟨[0], [], []⟩ ∧
    rowptr_counts emptyCSR emptyCSR 0 1 0 = 1 ∧
    send_rowptr emptyCSR emptyCSR 0 1 0 = [0] ∧
    final_C_rowptr emptyCSR emptyCSR 0 1 = [0] ∧
    ¬ (rowptr_counts emptyCSR emptyCSR 0 1 0 = 0) := by
  have hl : local_C emptyCSR emptyCSR 0 1 0 = ⟨[0], [], []⟩ :=
    local_C_of_no_rows emptyCSR emptyCSR 0 1 0 (by decide)
  have hs : send_rowptr emptyCSR emptyCSR 0 1 0 = [0] := by
    rw [send_rowptr_zero, hl]
  have hc : rowptr_counts emptyCSR emptyCSR 0 1 0 = 1 := by
    rw [rowptr_counts_eq, hs]; rfl
  refine ⟨by decide, by decide, by decide, hl, hc, hs, ?_, by rw [hc]; decide⟩
  rw [final_C_rowptr_eq emptyCSR emptyCSR 0 1 (le_refl 1), hs]
  rfl

/-- C10 (as amended). More workers than rows: when `N < size`, workers `0 .. N - 1` receive
one row each and every trailing worker `p ≥ N` receives none, computes zero local rows, has
the local result `values = []`, `colidx = []`, `rowptr = [0]`, and contributes no value and
no column index; a trailing worker `p ≥ 1` contributes no row-pointer entry either, while
worker 0 (trailing only when `N = 0`) contributes its single row-pointer entry 0. -/
theorem trailing_workers (A B : CSR) (N size : Nat) (h : N < size) :
    (∀ p, p < N → rowcount N size p = 1) ∧
    (∀ p, N ≤ p → p < size →
      rowcount N size p = 0 ∧
      local_rows A N size p = 0 ∧
      local_C A B N size p = ⟨[0], [], []⟩ ∧
      all_nnz A B N size p = 0 ∧
      (1 ≤ p → rowptr_counts A B N size p = 0 ∧ send_rowptr A B N size p = []) ∧
      (p = 0 → rowptr_counts A B N size p = 1 ∧ send_rowptr A B N size p = [0])) := by
  have hdiv : N / size = 0 := Nat.div_eq_of_lt h
  have hmod : N % size = N := Nat.mod_eq_of_lt h
  constructor
  · intro p hp
    simp [rowcount, rowsperproc, rem, hdiv, hmod, hp]
  · intro p hNp hp
    have hrc : rowcount N size p = 0 := by
      simp [rowcount, rowsperproc, rem, hdiv, hmod]
      omega
    have hl := local_C_of_no_rows A B N size p hrc
    have hrows : local_rows A N size p = 0 := by rw [local_rows_eq A N size p hp, hrc]
    refine ⟨hrc, hrows, hl, ?_, ?_, ?_⟩
    · unfold all_nnz; rw [hl]; rfl
    · intro h1
      obtain ⟨q, rfl⟩ : ∃ q, p = q + 1 := ⟨p - 1, by omega⟩
      have hs : send_rowptr A B N size (q + 1) = [] := by rw [send_rowptr_succ, hl]; rfl
      exact ⟨by rw [rowptr_counts_eq, hs]; rfl, hs⟩
    · intro h0
      subst h0
      have hs : send_rowptr A B N size 0 = [0] := by rw [send_rowptr_zero, hl]
      exact ⟨by rw [rowptr_counts_eq, hs]; rfl, hs⟩

/-- C10 (as amended) with one row and three workers. -/
theorem trailing_workers_witness :
    1 < 3 ∧
    ((∀ p, p < 1 → rowcount 1 3 p = 1) ∧
    (∀ p, 1 ≤ p → p < 3 →
      rowcount 1 3 p = 0 ∧
      local_rows fiveA 1 3 p = 0 ∧
      local_C fiveA zeroB 1 3 p = ⟨[0], [], []⟩ ∧
      all_nnz fiveA zeroB 1 3 p = 0 ∧
      (1 ≤ p → rowptr_counts fiveA zeroB 1 3 p = 0 ∧ send_rowptr fiveA zeroB 1 3 p = []) ∧
      (p = 0 → rowptr_counts fiveA zeroB 1 3 p = 1 ∧ send_rowptr fiveA zeroB 1 3 p = [0]))) :=
  ⟨by decide, trailing_workers fiveA zeroB 1 3 (by decide)⟩

/-! ## Positions in the merged row pointer -/

theorem range_flatMap_getD {β : Type} (F : Nat → List β) (d : β) {p size : Nat} (hp : p < size)
    {j : Nat} (hj : j < (F p).length) :
    ((List.range size).flatMap F).getD (((List.range p).flatMap F).length + j) d =
      (F p).getD j d := by
  rw [range_flatMap_split F hp, List.getD_eq_getElem?_getD, List.getD_eq_getElem?_getD,
    List.getElem?_append_right (Nat.le_add_right _ _), Nat.add_sub_cancel_left,
    List.getElem?_append_left hj]

theorem final_C_rowptr_blocks (A B : CSR) (N size : Nat) (hsize : 1 ≤ size) :
    final_C_rowptr A B N size =
      (List.range size).flatMap
        (fun p => (send_rowptr A B N size p).map (· + nnz_offsets A B N size p)) := by
  obtain ⟨k, rfl⟩ : ∃ k, size = k + 1 := ⟨size - 1, by omega⟩
  rw [final_C_rowptr_eq A B N (k + 1) hsize, List.range_eq_range', List.range'_succ,
    List.flatMap_cons, Nat.add_sub_cancel]
  congr 1
  simp [nnz_offsets]

theorem rowptr_offsets_blocks (A B : CSR) (N size p : Nat) :
    ((List.range p).flatMap
      (fun q => (send_rowptr A B N size q).map (· + nnz_offsets A B N size q))).length =
      rowptr_offsets A B N size p := by
  rw [rowptr_offsets_eq]
  exact flatMap_length_congr _ _ (fun q => List.length_map _ _) _

theorem rowptr_counts_zero (A B : CSR) (N size : Nat) (hsize : 1 ≤ size) :
    rowptr_counts A B N size 0 = rowcount N size 0 + 1 := by
  rw [rowptr_counts, local_C_rowptr_length, local_rows_eq A N size 0 hsize]

theorem rowptr_counts_succ (A : CSR) (B : CSR) (N size p : Nat) (hp : p + 1 < size) :
    rowptr_counts A B N size (p + 1) = rowcount N size (p + 1) := by
  rw [rowptr_counts, all_rows, local_rows_eq A N size (p + 1) hp]

theorem rowptr_offsets_succ (A B : CSR) (N size p : Nat) (hp : p < size) :
    rowptr_offsets A B N size (p + 1) = rowoffset N size (p + 1) + 1 := by
  induction p with
  | zero =>
    rw [rowptr_offsets, rowptr_offsets, rowptr_counts_zero A B N size hp]
    simp [rowoffset]
  | succ p ih =>
    have e : rowoffset N size (p + 1 + 1) =
        rowoffset N size (p + 1) + rowcount N size (p + 1) := rfl
    rw [rowptr_offsets, ih (by omega), rowptr_counts_succ A B N size p hp, e]
    omega

theorem local_C_rowptr_head (A B : CSR) (N size p : Nat) :
    (local_C A B N size p).rowptr.getD 0 0 = 0 := by
  unfold local_C
  rw [computeC_eq]
  exact (assemble_wellFormed _).2.1

theorem final_C_rowptr_entry (A B : CSR) (N size p i : Nat) (hsize : 1 ≤ size) (hp : p < size)
    (h1 : 1 ≤ i) (h2 : i ≤ local_rows A N size p) :
    (final_C_rowptr A B N size).getD (rowoffset N size p + i) 0 =
      (local_C A B N size p).rowptr.getD i 0 + nnz_offsets A B N size p := by
  have hlen := local_C_rowptr_length A B N size p
  rw [final_C_rowptr_blocks A B N size hsize]
  cases p with
  | zero =>
    have hj : i < ((fun p => (send_rowptr A B N size p).map (· + nnz_offsets A B N size p))
        0).length := by
      simp only [List.length_map, send_rowptr_zero]; omega
    have := range_flatMap_getD
      (fun p => (send_rowptr A B N size p).map (· + nnz_offsets A B N size p)) 0 hp hj
    simp only [List.range_zero, List.flatMap_nil, List.length_nil, Nat.zero_add] at this
    rw [rowoffset, Nat.zero_add, this, send_rowptr_zero]
    simp [nnz_offsets]
  | succ p =>
    have hj : i - 1 < ((fun p => (send_rowptr A B N size p).map (· + nnz_offsets A B N size p))
        (p + 1)).length := by
      simp only [List.length_map, send_rowptr_succ, List.length_drop]; omega
    have := range_flatMap_getD
      (fun p => (send_rowptr A B N size p).map (· + nnz_offsets A B N size p)) 0 hp hj
    rw [rowptr_offsets_blocks, rowptr_offsets_succ A B N size p (by omega)] at this
    have e : rowoffset N size (p + 1) + 1 + (i - 1) = rowoffset N size (p + 1) + i := by omega
    rw [e] at this
    rw [this]
    beta_reduce
    rw [send_rowptr_succ]
    have hi : i - 1 < (List.drop 1 (local_C A B N size (p + 1)).rowptr).length := by
      rw [List.length_drop]; omega
    have hi' : i < (local_C A B N size (p + 1)).rowptr.length := by omega
    simp only [List.getD_eq_getElem?_getD, List.getElem?_map, List.getElem?_drop]
    have e2 : 1 + (i - 1) = i := by omega
    rw [e2, List.getElem?_eq_getElem hi']
    rfl

/-- C11. Result collection and rebasing: for every worker count `size ≥ 1`, with
`nnz_offsets 0 = 0` and `nnz_offsets (p + 1) = nnz_offsets p + all_nnz p`, the merged value
and column arrays are the concatenation of the local result arrays in worker order, the
merged row pointer starts with 0, and for every worker `p` and local row index
`1 ≤ i ≤ local_rows p` the merged entry at `rowoffset p + i` is
`local_C_rowptr_p[i] + nnz_offsets p`. The shift is applied once: on a worker `p ≥ 1` the
offset vector is still all zero, so it sends its row pointer without the leading entry and
unshifted; worker 0 sends its row pointer whole and its offset is 0. -/
theorem result_rebasing (A B : CSR) (N size : Nat) (hsize : 1 ≤ size) :
    nnz_offsets A B N size 0 = 0 ∧
    (∀ p, nnz_offsets A B N size (p + 1) = nnz_offsets A B N size p + all_nnz A B N size p) ∧
    final_C_values A B N size =
      (List.range size).flatMap (fun p => (local_C A B N size p).values) ∧
    final_C_colidx A B N size =
      (List.range size).flatMap (fun p => (local_C A B N size p).colidx) ∧
    (final_C_rowptr A B N size).getD 0 0 = 0 ∧
    (∀ p i, p < size → 1 ≤ i → i ≤ local_rows A N size p →
      (final_C_rowptr A B N size).getD (rowoffset N size p + i) 0 =
        (local_C A B N size p).rowptr.getD i 0 + nnz_offsets A B N size p) ∧
    (∀ p, 1 ≤ p → nnz_offsets_on A B N size p p = 0 ∧
      send_rowptr A B N size p = (local_C A B N size p).rowptr.drop 1) ∧
    send_rowptr A B N size 0 = (local_C A B N size 0).rowptr := by
  refine ⟨rfl, fun p => rfl, final_C_values_eq A B N size hsize,
    final_C_colidx_eq A B N size hsize, ?_, ?_, ?_, send_rowptr_zero A B N size⟩
  · have hlen := local_C_rowptr_length A B N size 0
    have hhead := local_C_rowptr_head A B N size 0
    rw [final_C_rowptr_eq A B N size hsize, send_rowptr_zero, List.getD_eq_getElem?_getD,
      List.getElem?_append_left (by omega), ← List.getD_eq_getElem?_getD]
    exact hhead
  · intro p i hp h1 h2
    exact final_C_rowptr_entry A B N size p i hsize hp h1 h2
  · intro p hp
    obtain ⟨q, rfl⟩ : ∃ q, p = q + 1 := ⟨p - 1, by omega⟩
    exact ⟨by simp [nnz_offsets_on], send_rowptr_succ A B N size q⟩

/-- C11 on a pair of unsorted matrices with three workers. -/
theorem result_rebasing_witness :
    1 ≤ 3 ∧
    (nnz_offsets unsortedA unsortedB 4 3 0 = 0 ∧
    (∀ p, nnz_offsets unsortedA unsortedB 4 3 (p + 1) =
      nnz_offsets unsortedA unsortedB 4 3 p + all_nnz unsortedA unsortedB 4 3 p) ∧
    final_C_values unsortedA unsortedB 4 3 =
      (List.range 3).flatMap (fun p => (local_C unsortedA unsortedB 4 3 p).values) ∧
    final_C_colidx unsortedA unsortedB 4 3 =
      (List.range 3).flatMap (fun p => (local_C unsortedA unsortedB 4 3 p).colidx) ∧
    (final_C_rowptr unsortedA unsortedB 4 3).getD 0 0 = 0 ∧
    (∀ p i, p < 3 → 1 ≤ i → i ≤ local_rows unsortedA 4 3 p →
      (final_C_rowptr unsortedA unsortedB 4 3).getD (rowoffset 4 3 p + i) 0 =
        (local_C unsortedA unsortedB 4 3 p).rowptr.getD i 0 +
          nnz_offsets unsortedA unsortedB 4 3 p) ∧
    (∀ p, 1 ≤ p → nnz_offsets_on unsortedA unsortedB 4 3 p p = 0 ∧
      send_rowptr unsortedA unsortedB 4 3 p = (local_C unsortedA unsortedB 4 3 p).rowptr.drop 1) ∧
    send_rowptr unsortedA unsortedB 4 3 0 = (local_C unsortedA unsortedB 4 3 0).rowptr) :=
  ⟨by decide, result_rebasing unsortedA unsortedB 4 3 (by decide)⟩

/-! ## Output lines -/

theorem intercalate_go_eq (sep : String) (l : List String) (acc : String) :
    String.intercalate.go acc sep l = l.foldl (fun a t => a ++ sep ++ t) acc := by
  induction l generalizing acc with
  | nil => rfl
  | cons x xs ih => simp only [String.intercalate.go, List.foldl_cons, ih]

theorem foldl_tokens (fmt : ℚ → String) (row : List (Int × ℚ)) (acc : String) :
    (row.flatMap (fun e => [toString e.1, fmt e.2])).foldl (fun a t => a ++ " " ++ t) acc =
      row.foldl (fun s e => s ++ " " ++ toString e.1 ++ " " ++ fmt e.2) acc := by
  induction row generalizing acc with
  | nil => rfl
  | cons x xs ih =>
    rw [List.flatMap_cons, List.foldl_append, ih]
    rfl

theorem rowEntries_length (C : CSR) (N i : Nat) (hC : WellFormed C N) (hi : i < N) :
    (rowEntries C i).length = C.rowptr.getD (i + 1) 0 - C.rowptr.getD i 0 := by
  have hb := hC.row_bound hi
  unfold rowEntries
  rw [List.length_take, List.length_drop, zip_length C N hC]
  omega

theorem writeRow_eq_specLine (fmt : ℚ → String) (C : CSR) (N i : Nat) (hC : WellFormed C N)
    (hi : i < N) : writeRow fmt C i = specLine fmt (rowEntries C i) := by
  have hlen := rowEntries_length C N i hC hi
  have hb := hC.row_bound hi
  unfold writeRow specLine
  simp only [hlen]
  split_ifs with hk
  · rfl
  · rw [String.intercalate, intercalate_go_eq, foldl_tokens]
    unfold rowEntries
    rw [← range'_map_getD_zip _ _ _ _ hb (by rw [hC.2.2.2.2]; exact hb), List.foldl_map]

/-- The merged result satisfies the CSR invariants. -/
theorem final_C_wellFormed (A B : CSR) (N M size : Nat) (hA : WellFormed A N)
    (hcols : ColsBelow A M) (hB : WellFormed B M) (hsize : 1 ≤ size) :
    WellFormed (final_C A B N size) N := by
  rw [final_C_eq_product A B N M size hA hcols hB hsize]
  exact productCSR_wellFormed A B N

/-- C12. Output encoding: for every CSR result `C` with `N` rows (every merged result is
one), the coordinator writes exactly `N` lines (none when `N = 0`); line `i` is `0` when
row `i` has no stored entries, and otherwise is the count
`k = rowptr[i + 1] - rowptr[i]` followed by the `k` pairs `column value` of the slice
`[rowptr[i], rowptr[i + 1])` in stored order, separated by single spaces. -/
theorem output_encoding (fmt : ℚ → String) (C : CSR) (N : Nat) (hC : WellFormed C N) :
    (writeResult fmt C N).length = N ∧
    ∀ i, i < N →
      (rowEntries C i).length = C.rowptr.getD (i + 1) 0 - C.rowptr.getD i 0 ∧
      (writeResult fmt C N).getD i "" = specLine fmt (rowEntries C i) ∧
      ((rowEntries C i).length = 0 → (writeResult fmt C N).getD i "" = "0") := by
  constructor
  · simp [writeResult]
  · intro i hi
    have hline : (writeResult fmt C N).getD i "" = specLine fmt (rowEntries C i) := by
      unfold writeResult
      rw [List.getD_eq_getElem?_getD, List.getElem?_map, List.getElem?_range hi]
      exact writeRow_eq_specLine fmt C N i hC hi
    refine ⟨rowEntries_length C N i hC hi, hline, ?_⟩
    intro h0
    rw [hline, specLine, if_pos h0]

/-- C12 on the merged product of `[[1, 2], [0, 3]]` with the identity, three workers. -/
theorem output_encoding_witness :
    WellFormed (final_C specA (identityCSR 2) 2 3) 2 ∧
    ((writeResult (fun _ => "v") (final_C specA (identityCSR 2) 2 3) 2).length = 2 ∧
    ∀ i, i < 2 →
      (rowEntries (final_C specA (identityCSR 2) 2 3) i).length =
        (final_C specA (identityCSR 2) 2 3).rowptr.getD (i + 1) 0 -
          (final_C specA (identityCSR 2) 2 3).rowptr.getD i 0 ∧
      (writeResult (fun _ => "v") (final_C specA (identityCSR 2) 2 3) 2).getD i "" =
        specLine (fun _ => "v") (rowEntries (final_C specA (identityCSR 2) 2 3) i) ∧
      ((rowEntries (final_C specA (identityCSR 2) 2 3) i).length = 0 →
        (writeResult (fun _ => "v") (final_C specA (identityCSR 2) 2 3) 2).getD i "" = "0")) :=
  ⟨final_C_wellFormed specA (identityCSR 2) 2 2 3 (by decide) (by decide)
      (identityCSR_wellFormed 2) (by decide),
    output_encoding (fun _ => "v") (final_C specA (identityCSR 2) 2 3) 2
      (final_C_wellFormed specA (identityCSR 2) 2 2 3 (by decide) (by decide)
        (identityCSR_wellFormed 2) (by decide))⟩

/-! ## Empty rows -/

theorem rowEntries_of_empty (A : CSR) (r : Nat)
    (h : A.rowptr.getD r 0 = A.rowptr.getD (r + 1) 0) : rowEntries A r = [] := by
  unfold rowEntries
  rw [h, Nat.sub_self, List.take_zero]

theorem resultRow_of_empty (A B : CSR) (r : Nat)
    (h : A.rowptr.getD r 0 = A.rowptr.getD (r + 1) 0) : resultRow A B r = [] := by
  unfold resultRow
  rw [rowEntries_of_empty A r h]
  rfl

theorem local_C_sparse_of_empty (B : CSR) (lrowptr : List Nat) (lcolidx : List Int)
    (lvalues : List ℚ) (i : Nat) (h : lrowptr.getD i 0 = lrowptr.getD (i + 1) 0) :
    local_C_sparse B lrowptr lcolidx lvalues i = [] := by
  unfold local_C_sparse
  simp only [h, Nat.sub_self]
  rfl

/-- C13. Empty rows of `A` give empty rows of `C`: for every well-formed input, worker
count `size ≥ 1` and row `r < N` with `A_rowptr[r] = A_rowptr[r + 1]`, the accumulator of
that row (local row `i` of the worker `p` with `rowoffset p + i = r`) receives no entry, the
merged row pointer has equal entries at `r` and `r + 1`, and the output line of row `r` is
`0`. -/
theorem empty_row (A B : CSR) (N M size r : Nat) (hA : WellFormed A N) (hcols : ColsBelow A M)
    (hB : WellFormed B M) (hsize : 1 ≤ size) (hr : r < N)
    (hempty : A.rowptr.getD r 0 = A.rowptr.getD (r + 1) 0) :
    (∀ p i, p < size → i < rowcount N size p → rowoffset N size p + i = r →
      local_C_sparse B (local_A_rowptr A N size p) (local_A_colidx A N size p)
        (local_A_values A N size p) i = []) ∧
    (final_C_rowptr A B N size).getD r 0 = (final_C_rowptr A B N size).getD (r + 1) 0 ∧
    ∀ fmt : ℚ → String, (writeResult fmt (final_C A B N size) N).getD r "" = "0" := by
  have hwf := final_C_wellFormed A B N M size hA hcols hB hsize
  have hlen := rowEntries_length (final_C A B N size) N r hwf hr
  have hmono : (final_C A B N size).rowptr.getD r 0 ≤ (final_C A B N size).rowptr.getD (r + 1) 0 :=
    hwf.rowptr_mono (Nat.le_succ r) hr
  have hrow : rowEntries (final_C A B N size) r = [] := by
    rw [final_C_eq_product A B N M size hA hcols hB hsize, rowEntries_product A B N r hr]
    exact resultRow_of_empty A B r hempty
  rw [hrow, List.length_nil] at hlen
  have heq : (final_C A B N size).rowptr.getD r 0 = (final_C A B N size).rowptr.getD (r + 1) 0 := by
    omega
  refine ⟨?_, heq, ?_⟩
  · intro p i hp hi hpi
    have hpos : 0 < rowcount N size p := by omega
    apply local_C_sparse_of_empty
    rw [local_A_rowptr_eq A N size p hp hpos, local_rowptrs_getD _ _ _ _ i hpos (le_of_lt hi),
      local_rowptrs_getD _ _ _ _ (i + 1) hpos hi]
    have e : rowoffset N size p + (i + 1) = r + 1 := by omega
    rw [hpi, e, hempty]
  · intro fmt
    unfold writeResult
    rw [List.getD_eq_getElem?_getD, List.getElem?_map, List.getElem?_range hr]
    simp only [Option.map_some', Option.getD_some, writeRow]
    rw [if_pos (by rw [heq]; exact Nat.sub_self _)]

/-- C13 on the empty row 1 of `unsortedA`, three workers. -/
theorem empty_row_witness :
    WellFormed unsortedA 4 ∧ ColsBelow unsortedA 3 ∧ WellFormed unsortedB 3 ∧ 1 ≤ 3 ∧ 1 < 4 ∧
    unsortedA.rowptr.getD 1 0 = unsortedA.rowptr.getD (1 + 1) 0 ∧
    ((∀ p i, p < 3 → i < rowcount 4 3 p → rowoffset 4 3 p + i = 1 →
      local_C_sparse unsortedB (local_A_rowptr unsortedA 4 3 p) (local_A_colidx unsortedA 4 3 p)
        (local_A_values unsortedA 4 3 p) i = []) ∧
    (final_C_rowptr unsortedA unsortedB 4 3).getD 1 0 =
      (final_C_rowptr unsortedA unsortedB 4 3).getD (1 + 1) 0 ∧
    ∀ fmt : ℚ → String,
      (writeResult fmt (final_C unsortedA unsortedB 4 3) 4).getD 1 "" = "0") :=
  ⟨by decide, by decide, by decide, by decide, by decide, by decide,
    empty_row unsortedA unsortedB 4 3 3 1 (by decide) (by decide) (by decide) (by decide)
      (by decide) (by decide)⟩

/-! ## CSR construction from the input -/

theorem readInt_intCast (n : Int) (rest : List ℚ) :
    readInt ((n : ℚ) :: rest) = some (n, rest) := by
  simp [readInt]

theorem readPairs_encode (row : List (Int × ℚ)) (rest : List ℚ) (colidx : List Int)
    (values : List ℚ) :
    readPairs row.length (row.flatMap (fun e => [((e.1 : Int) : ℚ), e.2]) ++ rest) colidx values =
      some (colidx ++ row.map Prod.fst, values ++ row.map Prod.snd, rest) := by
  induction row generalizing colidx values with
  | nil => simp [readPairs]
  | cons x xs ih =>
    simp only [List.length_cons, List.flatMap_cons, List.cons_append, List.nil_append,
      readPairs, readInt_intCast, readDouble, ih, List.map_cons, List.append_assoc]

theorem rowptrOf_getLastD (lens : List Nat) : (rowptrOf lens).getLastD 0 = lens.sum := by
  induction lens using List.reverseRecOn with
  | nil => rfl
  | append_singleton l x _ =>
    rw [rowptrOf_concat, List.getLastD_concat, List.sum_append]
    simp

theorem assemble_concat (rows : List (List (Int × ℚ))) (row : List (Int × ℚ)) :
    assemble (rows ++ [row]) =
      { rowptr := (assemble rows).rowptr ++
          [((((assemble rows).rowptr.getLastD 0 : Nat) : Int) + ((row.length : Nat) : Int)).toNat]
        colidx := (assemble rows).colidx ++ row.map Prod.fst
        values := (assemble rows).values ++ row.map Prod.snd } := by
  simp only [assemble, List.map_append, List.map_cons, List.map_nil, rowptrOf_concat,
    rowptrOf_getLastD, List.flatten_append, List.flatten_cons, List.flatten_nil,
    List.append_nil]
  congr 2

theorem readRows_encode (rows done : List (List (Int × ℚ))) (rest : List ℚ) :
    readRows rows.length (encodeRows rows ++ rest) (assemble done) =
      some (assemble (done ++ rows), rest) := by
  induction rows generalizing done with
  | nil => simp [readRows, encodeRows]
  | cons x xs ih =>
    have h := ih (done ++ [x])
    rw [assemble_concat, List.append_assoc] at h
    simp only [List.length_cons, encodeRows, List.flatMap_cons, encodeRow, List.cons_append,
      List.append_assoc, readRows, readInt_intCast, Int.toNat_ofNat, readPairs_encode]
    exact h

theorem readCSR_encode (rows : List (List (Int × ℚ))) (rest : List ℚ) :
    readCSR rows.length (encodeRows rows ++ rest) = some (assemble rows, rest) := by
  have := readRows_encode rows [] rest
  simpa [readCSR, assemble_nil] using this


/-- The whole input phase on the dimensions followed by the rows of `A` and of `B`. -/
theorem readInput_encode (rowsA rowsB : List (List (Int × ℚ))) (P : Int) (rest : List ℚ) :
    readInput (((rowsA.length : Int) : ℚ) :: ((rowsB.length : Int) : ℚ) :: (P : ℚ) ::
        (encodeRows rowsA ++ (encodeRows rowsB ++ rest))) =
      some ((rowsA.length : Int), (rowsB.length : Int), P, assemble rowsA, assemble rowsB) := by
  simp only [readInput, readInt_intCast, Int.toNat_ofNat, readCSR_encode]

/-- C14. CSR construction from input: for every input of `R` rows, each given as its count
`k` followed by `k` pairs `col val`, the construction succeeds, consumes exactly these
numerals, and yields a row pointer with `R + 1` entries that starts at 0, is non-decreasing,
grows by `k` at row `r`, and ends at the common length of the column and value arrays;
the arrays hold the pairs in input order (no sorting, no deduplication), so the slice of
row `r` is exactly the pairs of row `r`. -/
theorem csr_construction (rows : List (List (Int × ℚ))) (rest : List ℚ) :
    ∃ C : CSR, readCSR rows.length (encodeRows rows ++ rest) = some (C, rest) ∧
      C.rowptr.length = rows.length + 1 ∧
      C.rowptr.getD 0 0 = 0 ∧
      C.rowptr.Pairwise (· ≤ ·) ∧
      (∀ r, r < rows.length →
        C.rowptr.getD r 0 + (rows.getD r []).length = C.rowptr.getD (r + 1) 0) ∧
      C.rowptr.getD rows.length 0 = C.colidx.length ∧
      C.values.length = C.colidx.length ∧
      C.colidx = rows.flatten.map Prod.fst ∧
      C.values = rows.flatten.map Prod.snd ∧
      (∀ r, r < rows.length → rowEntries C r = rows.getD r []) := by
  have hwf := assemble_wellFormed rows
  obtain ⟨h1, h2, h3, h4, h5⟩ := hwf
  refine ⟨assemble rows, readCSR_encode rows rest, h1, h2, h3, ?_, h4, h5, rfl, rfl, ?_⟩
  · intro r hr
    have hlen := rowEntries_length (assemble rows) rows.length r (assemble_wellFormed rows) hr
    have hmono : (assemble rows).rowptr.getD r 0 ≤ (assemble rows).rowptr.getD (r + 1) 0 :=
      (assemble_wellFormed rows).rowptr_mono (Nat.le_succ r) hr
    rw [rowEntries_assemble rows r hr] at hlen
    omega
  · intro r hr
    exact rowEntries_assemble rows r hr

/-! ## Keys of the accumulator -/

theorem mem_keys_mapAdd (m : List (Int × ℚ)) (c : Int) (v : ℚ) (c' : Int) :
    c' ∈ (mapAdd m c v).map Prod.fst ↔ c' ∈ m.map Prod.fst ∨ c' = c := by
  rw [mapAdd_keys]
  split_ifs with h
  · constructor
    · exact fun hm => Or.inl hm
    · rintro (hm | rfl)
      · exact hm
      · exact h
  · rw [List.mem_append, List.mem_singleton]

theorem mem_keys_foldl_mapAdd (row : List (Int × ℚ)) (a : ℚ) (acc : List (Int × ℚ)) (c : Int) :
    c ∈ (row.foldl (fun acc cb => mapAdd acc cb.1 (a * cb.2)) acc).map Prod.fst ↔
      c ∈ acc.map Prod.fst ∨ ∃ cb ∈ row, cb.1 = c := by
  induction row generalizing acc with
  | nil => simp
  | cons x xs ih =>
    rw [List.foldl_cons, ih, mem_keys_mapAdd]
    constructor
    · rintro ((h | h) | ⟨cb, hcb, h⟩)
      · exact Or.inl h
      · exact Or.inr ⟨x, List.mem_cons_self _ _, h.symm⟩
      · exact Or.inr ⟨cb, List.mem_cons_of_mem _ hcb, h⟩
    · rintro (h | ⟨cb, hcb, h⟩)
      · exact Or.inl (Or.inl h)
      · rcases List.mem_cons.1 hcb with rfl | hmem
        · exact Or.inl (Or.inr h.symm)
        · exact Or.inr ⟨cb, hmem, h⟩

theorem mem_keys_accumEntries (B : CSR) (entries : List (Int × ℚ)) (c : Int) :
    c ∈ (accumEntries B entries).map Prod.fst ↔
      ∃ ka ∈ entries, ∃ cb ∈ rowEntries B ka.1.toNat, cb.1 = c := by
  unfold accumEntries
  suffices h : ∀ acc : List (Int × ℚ),
      (c ∈ (entries.foldl (fun acc ka => (rowEntries B ka.1.toNat).foldl
        (fun acc cb => mapAdd acc cb.1 (ka.2 * cb.2)) acc) acc).map Prod.fst ↔
      c ∈ acc.map Prod.fst ∨ ∃ ka ∈ entries, ∃ cb ∈ rowEntries B ka.1.toNat, cb.1 = c) by
    rw [h []]; simp
  induction entries with
  | nil => intro acc; simp
  | cons x xs ih =>
    intro acc
    rw [List.foldl_cons, ih, mem_keys_foldl_mapAdd]
    constructor
    · rintro ((h | h) | ⟨ka, hka, h⟩)
      · exact Or.inl h
      · exact Or.inr ⟨x, List.mem_cons_self _ _, h⟩
      · exact Or.inr ⟨ka, List.mem_cons_of_mem _ hka, h⟩
    · rintro (h | ⟨ka, hka, h⟩)
      · exact Or.inl (Or.inl h)
      · rcases List.mem_cons.1 hka with rfl | hmem
        · exact Or.inl (Or.inr h)
        · exact Or.inr ⟨ka, hmem, h⟩

/-! ## The local multiply engine -/

/-- C15. Local multiply engine, over exact arithmetic: for a local row block with `n` rows
whose column indices lie in `[0, M)` and a replicated `B` with `M` rows, after the
accumulation loop the accumulator of local row `i` has distinct keys, has a key exactly for
the columns `c` reached through some stored `(a_col, a_val)` of the row and some stored
`(c, b_val)` of row `a_col` of `B`, and maps `c` to the sum `S(i, c)` of the products
`a_val * b_val`; row `i` of the flattened local result is a rearrangement of the accumulator
entries with `|value| > 1e-12`, in strictly ascending column order; and the local row
pointer advances at row `i` by the number of these entries. -/
theorem local_multiply (B : CSR) (M n : Nat) (lrowptr : List Nat) (lcolidx : List Int)
    (lvalues : List ℚ) (hL : WellFormed ⟨lrowptr, lcolidx, lvalues⟩ n)
    (hcols : ∀ c ∈ lcolidx, 0 ≤ c ∧ c < (M : Int)) (hB : WellFormed B M) (i : Nat) (hi : i < n) :
    ((local_C_sparse B lrowptr lcolidx lvalues i).map Prod.fst).Nodup ∧
    (∀ c, c ∈ (local_C_sparse B lrowptr lcolidx lvalues i).map Prod.fst ↔
      ∃ ka ∈ rowEntries ⟨lrowptr, lcolidx, lvalues⟩ i,
        ∃ cb ∈ rowEntries B ka.1.toNat, cb.1 = c) ∧
    (∀ c v, (c, v) ∈ local_C_sparse B lrowptr lcolidx lvalues i →
      v = S ⟨lrowptr, lcolidx, lvalues⟩ B i c) ∧
    List.Perm (rowEntries (computeC B lrowptr lcolidx lvalues) i)
      ((local_C_sparse B lrowptr lcolidx lvalues i).filter
        (fun elem => decide (eps < |elem.2|))) ∧
    ((rowEntries (computeC B lrowptr lcolidx lvalues) i).map Prod.fst).Pairwise (· < ·) ∧
    (computeC B lrowptr lcolidx lvalues).rowptr.getD i 0 +
        ((local_C_sparse B lrowptr lcolidx lvalues i).filter
          (fun elem => decide (eps < |elem.2|))).length =
      (computeC B lrowptr lcolidx lvalues).rowptr.getD (i + 1) 0 := by
  have hb : lrowptr.getD i 0 + (lrowptr.getD (i + 1) 0 - lrowptr.getD i 0) ≤ lcolidx.length :=
    hL.row_bound hi
  have hv : lrowptr.getD i 0 + (lrowptr.getD (i + 1) 0 - lrowptr.getD i 0) ≤ lvalues.length := by
    have := hL.2.2.2.2
    simp only at this
    rw [this]; exact hb
  have hacc := local_C_sparse_eq B M hB lrowptr lcolidx lvalues i hb hv hcols
  have hnd : ((local_C_sparse B lrowptr lcolidx lvalues i).map Prod.fst).Nodup := by
    rw [hacc]; exact accumEntries_nodup B _
  have hrows : local_rows_of lrowptr = n := by
    have := hL.1
    simp only at this
    simp [local_rows_of, this]
  have hlenrows : ((List.range n).map
      (fun i => row_elements (local_C_sparse B lrowptr lcolidx lvalues i))).length = n := by simp
  have hwf := assemble_wellFormed ((List.range n).map
      (fun i => row_elements (local_C_sparse B lrowptr lcolidx lvalues i)))
  rw [hlenrows] at hwf
  have hrow : rowEntries (computeC B lrowptr lcolidx lvalues) i =
      row_elements (local_C_sparse B lrowptr lcolidx lvalues i) := by
    rw [computeC_eq, hrows, rowEntries_assemble _ i (by rw [hlenrows]; exact hi)]
    simp [List.getD_eq_getElem?_getD, List.getElem?_range hi]
  have hperm : List.Perm (row_elements (local_C_sparse B lrowptr lcolidx lvalues i))
      ((local_C_sparse B lrowptr lcolidx lvalues i).filter
        (fun elem => decide (eps < |elem.2|))) := List.perm_insertionSort pairLe _
  refine ⟨hnd, ?_, ?_, ?_, ?_, ?_⟩
  · intro c
    rw [hacc]
    exact mem_keys_accumEntries B _ c
  · intro c v hm
    have := valOf_of_mem _ hnd hm
    rw [hacc, valOf_accumEntries] at this
    exact this.symm
  · rw [hrow]; exact hperm
  · rw [hrow]; exact row_elements_sorted _ hnd
  · have hlen := rowEntries_length (assemble ((List.range n).map
      (fun i => row_elements (local_C_sparse B lrowptr lcolidx lvalues i)))) n i hwf hi
    have hmono := hwf.rowptr_mono (Nat.le_succ i) hi
    rw [computeC_eq, hrows] at hrow ⊢
    rw [hrow, hperm.length_eq] at hlen
    have hmono' : (assemble ((List.range n).map
        (fun i => row_elements (local_C_sparse B lrowptr lcolidx lvalues i)))).rowptr.getD i 0 ≤
        (assemble ((List.range n).map
        (fun i => row_elements (local_C_sparse B lrowptr lcolidx lvalues i)))).rowptr.getD
          (i + 1) 0 := hmono
    omega

/-- C15 on the rows of `unsortedA` as a local block, against `unsortedB`, local row 2. -/
theorem local_multiply_witness :
    WellFormed ⟨[0, 2, 2, 5, 6], [1, 0, 2, 0, 1, 2], [1, 2, 3, 4, 5, 1 / 3]⟩ 4 ∧
    (∀ c ∈ [(1 : Int), 0, 2, 0, 1, 2], 0 ≤ c ∧ c < ((3 : Nat) : Int)) ∧
    WellFormed unsortedB 3 ∧ 2 < 4 ∧
    (((local_C_sparse unsortedB [0, 2, 2, 5, 6] [1, 0, 2, 0, 1, 2] [1, 2, 3, 4, 5, 1 / 3]
        2).map Prod.fst).Nodup ∧
    (∀ c, c ∈ (local_C_sparse unsortedB [0, 2, 2, 5, 6] [1, 0, 2, 0, 1, 2]
        [1, 2, 3, 4, 5, 1 / 3] 2).map Prod.fst ↔
      ∃ ka ∈ rowEntries ⟨[0, 2, 2, 5, 6], [1, 0, 2, 0, 1, 2], [1, 2, 3, 4, 5, 1 / 3]⟩ 2,
        ∃ cb ∈ rowEntries unsortedB ka.1.toNat, cb.1 = c) ∧
    (∀ c v, (c, v) ∈ local_C_sparse unsortedB [0, 2, 2, 5, 6] [1, 0, 2, 0, 1, 2]
        [1, 2, 3, 4, 5, 1 / 3] 2 →
      v = S ⟨[0, 2, 2, 5, 6], [1, 0, 2, 0, 1, 2], [1, 2, 3, 4, 5, 1 / 3]⟩ unsortedB 2 c) ∧
    List.Perm
      (rowEntries (computeC unsortedB [0, 2, 2, 5, 6] [1, 0, 2, 0, 1, 2]
        [1, 2, 3, 4, 5, 1 / 3]) 2)
      ((local_C_sparse unsortedB [0, 2, 2, 5, 6] [1, 0, 2, 0, 1, 2] [1, 2, 3, 4, 5, 1 / 3]
        2).filter (fun elem => decide (eps < |elem.2|))) ∧
    ((rowEntries (computeC unsortedB [0, 2, 2, 5, 6] [1, 0, 2, 0, 1, 2]
        [1, 2, 3, 4, 5, 1 / 3]) 2).map Prod.fst).Pairwise (· < ·) ∧
    (computeC unsortedB [0, 2, 2, 5, 6] [1, 0, 2, 0, 1, 2]
        [1, 2, 3, 4, 5, 1 / 3]).rowptr.getD 2 0 +
        ((local_C_sparse unsortedB [0, 2, 2, 5, 6] [1, 0, 2, 0, 1, 2] [1, 2, 3, 4, 5, 1 / 3]
          2).filter (fun elem => decide (eps < |elem.2|))).length =
      (computeC unsortedB [0, 2, 2, 5, 6] [1, 0, 2, 0, 1, 2]
        [1, 2, 3, 4, 5, 1 / 3]).rowptr.getD (2 + 1) 0) :=
  ⟨by decide, by decide, by decide, by decide,
    local_multiply unsortedB 3 4 [0, 2, 2, 5, 6] [1, 0, 2, 0, 1, 2] [1, 2, 3, 4, 5, 1 / 3]
      (by decide) (by decide) (by decide) 2 (by decide)⟩

/-! ## Declared sizes and payload lengths -/

theorem getLast?_of_getD (l : List Nat) (n x : Nat) (hlen : l.length = n + 1)
    (h : l.getD n 0 = x) : l.getLast? = some x := by
  have hn : n < l.length := by omega
  rw [List.getLast?_eq_getElem?, hlen, Nat.add_sub_cancel, List.getElem?_eq_getElem hn]
  rw [List.getD_eq_getElem?_getD, List.getElem?_eq_getElem hn] at h
  exact congrArg some h

theorem local_A_rowptr_last (A : CSR) (N size p : Nat) (hp : p < size)
    (hpos : 0 < rowcount N size p) :
    (local_A_rowptr A N size p).getLast? = some (sendcount A.rowptr N size p) := by
  rw [local_A_rowptr_eq A N size p hp hpos]
  apply getLast?_of_getD _ (rowcount N size p)
  · exact local_rowptrs_length _ _ _ _ hpos
  · rw [local_rowptrs_getD _ _ _ _ _ hpos (le_refl _), sendcount_eq]

theorem local_A_rowptr_length (A : CSR) (N size p : Nat) (hp : p < size) :
    (local_A_rowptr A N size p).length = rowptr_sendcount A.rowptr N size p := by
  rw [rowptr_sendcount_eq]
  by_cases h : 0 < rowcount N size p
  · rw [local_A_rowptr_eq A N size p hp h]
  · have h0 : rowcount N size p = 0 := by omega
    rw [local_A_rowptr_nil A N size p h0, local_rowptrs_nil _ _ _ _ h0]

theorem local_C_rowptr_last (A B : CSR) (N size p : Nat) :
    (local_C A B N size p).rowptr.getLast? = some (all_nnz A B N size p) := by
  unfold all_nnz local_C
  rw [computeC_eq]
  have hwf := assemble_wellFormed ((List.range (local_rows_of (local_A_rowptr A N size p))).map
    (fun i => row_elements (local_C_sparse B (local_A_rowptr A N size p)
      (local_A_colidx A N size p) (local_A_values A N size p) i)))
  exact getLast?_of_getD _ _ _ hwf.1 (hwf.2.2.2.1.trans hwf.2.2.2.2.symm)

theorem rowptr_counts_sum (A B : CSR) (N size : Nat) (hsize : 1 ≤ size) :
    ∑ p ∈ Finset.range size, rowptr_counts A B N size p = N + 1 := by
  have hsum : ∀ k, ∑ p ∈ Finset.range k, rowptr_counts A B N size p =
      rowptr_offsets A B N size k := by
    intro k
    induction k with
    | zero => rfl
    | succ k ih => rw [Finset.sum_range_succ, ih]; rfl
  obtain ⟨k, rfl⟩ : ∃ k, size = k + 1 := ⟨size - 1, by omega⟩
  rw [hsum, rowptr_offsets_succ A B N (k + 1) k (Nat.lt_succ_self k),
    rowoffset_size N (k + 1) hsize]

/-- C16. No size mismatch: for every well-formed `A` and worker count `size ≥ 1`, at every
variable-length transfer the declared size equals the payload length. For each worker `p`:
`sendcount p` is the last entry of its local row pointer (and is 0, with an empty local row
pointer, when `p` has no rows) and the length of its value and column slices; the local row
pointer has `rowptr_sendcount p` entries; `all_nnz p` is the last entry of `local_C_rowptr`
and the length of the local result arrays; the row-pointer count expected from `p`
(`local_rows + 1` for worker 0, `local_rows` otherwise) is the length of what `p` sends.
The expected counts sum to `N + 1`. -/
theorem no_size_mismatch (A B : CSR) (N size : Nat) (hA : WellFormed A N) (hsize : 1 ≤ size) :
    (∀ p, p < size →
      (0 < rowcount N size p →
        (local_A_rowptr A N size p).getLast? = some (sendcount A.rowptr N size p)) ∧
      (rowcount N size p = 0 →
        sendcount A.rowptr N size p = 0 ∧ local_A_rowptr A N size p = []) ∧
      (local_A_values A N size p).length = sendcount A.rowptr N size p ∧
      (local_A_colidx A N size p).length = sendcount A.rowptr N size p ∧
      (local_A_rowptr A N size p).length = rowptr_sendcount A.rowptr N size p ∧
      (local_C A B N size p).rowptr.getLast? = some (all_nnz A B N size p) ∧
      (local_C A B N size p).values.length = all_nnz A B N size p ∧
      (local_C A B N size p).colidx.length = all_nnz A B N size p ∧
      rowptr_counts A B N size p = local_rows A N size p + (if p = 0 then 1 else 0) ∧
      (send_rowptr A B N size p).length = rowptr_counts A B N size p) ∧
    ∑ p ∈ Finset.range size, rowptr_counts A B N size p = N + 1 := by
  refine ⟨?_, rowptr_counts_sum A B N size hsize⟩
  intro p hp
  refine ⟨local_A_rowptr_last A N size p hp, ?_, local_A_values_length A N size p hA hsize hp,
    local_A_colidx_length A N size p hA hsize hp, local_A_rowptr_length A N size p hp,
    local_C_rowptr_last A B N size p, rfl, local_C_colidx_length A B N size p, ?_,
    (rowptr_counts_eq A B N size p).symm⟩
  · intro h0
    refine ⟨?_, local_A_rowptr_nil A N size p h0⟩
    rw [sendcount_eq, h0]; simp
  · cases p with
    | zero => rw [rowptr_counts, local_C_rowptr_length]; rfl
    | succ q => simp [rowptr_counts, all_rows]

/-- C16 on `unsortedA`, `unsortedB` with six workers (two of them without rows). -/
theorem no_size_mismatch_witness :
    WellFormed unsortedA 4 ∧ 1 ≤ 6 ∧
    ((∀ p, p < 6 →
      (0 < rowcount 4 6 p →
        (local_A_rowptr unsortedA 4 6 p).getLast? = some (sendcount unsortedA.rowptr 4 6 p)) ∧
      (rowcount 4 6 p = 0 →
        sendcount unsortedA.rowptr 4 6 p = 0 ∧ local_A_rowptr unsortedA 4 6 p = []) ∧
      (local_A_values unsortedA 4 6 p).length = sendcount unsortedA.rowptr 4 6 p ∧
      (local_A_colidx unsortedA 4 6 p).length = sendcount unsortedA.rowptr 4 6 p ∧
      (local_A_rowptr unsortedA 4 6 p).length = rowptr_sendcount unsortedA.rowptr 4 6 p ∧
      (local_C unsortedA unsortedB 4 6 p).rowptr.getLast? =
        some (all_nnz unsortedA unsortedB 4 6 p) ∧
      (local_C unsortedA unsortedB 4 6 p).values.length = all_nnz unsortedA unsortedB 4 6 p ∧
      (local_C unsortedA unsortedB 4 6 p).colidx.length = all_nnz unsortedA unsortedB 4 6 p ∧
      rowptr_counts unsortedA unsortedB 4 6 p =
        local_rows unsortedA 4 6 p + (if p = 0 then 1 else 0) ∧
      (send_rowptr unsortedA unsortedB 4 6 p).length = rowptr_counts unsortedA unsortedB 4 6 p) ∧
    ∑ p ∈ Finset.range 6, rowptr_counts unsortedA unsortedB 4 6 p = 4 + 1) :=
  ⟨by decide, by decide, no_size_mismatch unsortedA unsortedB 4 6 (by decide) (by decide)⟩

/-! ## Enumeration order and order within the input rows -/

theorem row_elements_perm {m1 m2 : List (Int × ℚ)} (h : List.Perm m1 m2) :
    row_elements m1 = row_elements m2 := by
  unfold row_elements
  apply List.eq_of_perm_of_sorted (r := pairLe)
  · exact ((List.perm_insertionSort pairLe _).trans (h.filter _)).trans
      (List.perm_insertionSort pairLe _).symm
  · exact List.sorted_insertionSort pairLe _
  · exact List.sorted_insertionSort pairLe _

theorem mem_iff_valOf (m : List (Int × ℚ)) (h : (m.map Prod.fst).Nodup) (c : Int) (v : ℚ) :
    (c, v) ∈ m ↔ c ∈ m.map Prod.fst ∧ valOf m c = v := by
  constructor
  · intro hm
    exact ⟨List.mem_map.2 ⟨(c, v), hm, rfl⟩, valOf_of_mem m h hm⟩
  · rintro ⟨hk, hv⟩
    obtain ⟨⟨c', w⟩, hmem, hc'⟩ := List.mem_map.1 hk
    simp only at hc'
    subst hc'
    have := valOf_of_mem m h hmem
    rw [hv] at this
    rw [this]
    exact hmem

theorem perm_of_keys_vals (m1 m2 : List (Int × ℚ)) (h1 : (m1.map Prod.fst).Nodup)
    (h2 : (m2.map Prod.fst).Nodup)
    (hk : ∀ c, c ∈ m1.map Prod.fst ↔ c ∈ m2.map Prod.fst)
    (hv : ∀ c, valOf m1 c = valOf m2 c) : List.Perm m1 m2 := by
  rw [List.perm_ext_iff_of_nodup (List.Nodup.of_map _ h1) (List.Nodup.of_map _ h2)]
  rintro ⟨c, v⟩
  rw [mem_iff_valOf m1 h1, mem_iff_valOf m2 h2, hk c, hv c]

theorem valOf_accumEntries_list (B : CSR) (entries : List (Int × ℚ)) (c : Int) :
    valOf (accumEntries B entries) c =
      (entries.map (fun ka =>
        (((rowEntries B ka.1.toNat).filter (fun cb => decide (cb.1 = c))).map
          (fun cb => ka.2 * cb.2)).sum)).sum := by
  unfold accumEntries
  suffices h : ∀ (entries acc : List (Int × ℚ)),
      valOf (entries.foldl (fun acc ka => (rowEntries B ka.1.toNat).foldl
        (fun acc cb => mapAdd acc cb.1 (ka.2 * cb.2)) acc) acc) c =
      valOf acc c + (entries.map (fun ka =>
        (((rowEntries B ka.1.toNat).filter (fun cb => decide (cb.1 = c))).map
          (fun cb => ka.2 * cb.2)).sum)).sum by
    rw [h]; simp [valOf]
  intro entries
  induction entries with
  | nil => intro acc; simp
  | cons x xs ih =>
    intro acc
    rw [List.foldl_cons, ih, valOf_foldl_mapAdd, List.map_cons, List.sum_cons]
    ring

theorem accumEntries_perm (B B' : CSR) (M : Nat) (e e' : List (Int × ℚ))
    (hcols : ∀ ka ∈ e, 0 ≤ ka.1 ∧ ka.1 < (M : Int)) (hp : List.Perm e e')
    (hpB : ∀ k, k < M → List.Perm (rowEntries B k) (rowEntries B' k)) :
    List.Perm (accumEntries B e) (accumEntries B' e') := by
  have hrow : ∀ ka ∈ e, List.Perm (rowEntries B ka.1.toNat) (rowEntries B' ka.1.toNat) := by
    intro ka hka
    have := hcols ka hka
    exact hpB _ (by omega)
  apply perm_of_keys_vals _ _ (accumEntries_nodup B e) (accumEntries_nodup B' e')
  · intro c
    rw [mem_keys_accumEntries, mem_keys_accumEntries]
    constructor
    · rintro ⟨ka, hka, cb, hcb, h⟩
      exact ⟨ka, hp.mem_iff.1 hka, cb, (hrow ka hka).mem_iff.1 hcb, h⟩
    · rintro ⟨ka, hka, cb, hcb, h⟩
      have hka' := hp.mem_iff.2 hka
      exact ⟨ka, hka', cb, (hrow ka hka').mem_iff.2 hcb, h⟩
  · intro c
    rw [valOf_accumEntries_list, valOf_accumEntries_list]
    have hfun : e.map (fun ka =>
        (((rowEntries B ka.1.toNat).filter (fun cb => decide (cb.1 = c))).map
          (fun cb => ka.2 * cb.2)).sum) =
        e.map (fun ka =>
        (((rowEntries B' ka.1.toNat).filter (fun cb => decide (cb.1 = c))).map
          (fun cb => ka.2 * cb.2)).sum) := by
      apply List.map_congr_left
      intro ka hka
      exact (((hrow ka hka).filter _).map _).sum_eq
    rw [hfun]
    exact (hp.map _).sum_eq

theorem colsBelow_of_rows (A : CSR) (N M : Nat) (hA : WellFormed A N)
    (h : ∀ r, r < N → ∀ e ∈ rowEntries A r, 0 ≤ e.1 ∧ e.1 < (M : Int)) : ColsBelow A M := by
  intro c hc
  have hasm := assemble_rowEntries A N hA
  have hcol : A.colidx = (((List.range N).map (rowEntries A)).flatten).map Prod.fst := by
    conv_lhs => rw [← hasm]
    rfl
  rw [hcol] at hc
  obtain ⟨e, he, rfl⟩ := List.mem_map.1 hc
  obtain ⟨row, hrow, hmem⟩ := List.mem_flatten.1 he
  obtain ⟨r, hr, rfl⟩ := List.mem_map.1 hrow
  exact h r (List.mem_range.1 hr) e hmem

/-- C17. Order within a row does not matter, over exact arithmetic: for every worker count
`size ≥ 1`, if `A'` and `B'` hold in every row the same pairs as `A` and `B` up to their
order (each row a rearrangement of the corresponding row), the merged results of `(A, B)`
and of `(A', B')` are equal: row pointer, column indices and values. -/
theorem row_order_irrelevant (A A' B B' : CSR) (N M size : Nat) (hA : WellFormed A N)
    (hA' : WellFormed A' N) (hcols : ColsBelow A M) (hB : WellFormed B M)
    (hB' : WellFormed B' M) (hsize : 1 ≤ size)
    (hpA : ∀ r, r < N → List.Perm (rowEntries A r) (rowEntries A' r))
    (hpB : ∀ k, k < M → List.Perm (rowEntries B k) (rowEntries B' k)) :
    final_C A B N size = final_C A' B' N size := by
  have hcols' : ColsBelow A' M := by
    apply colsBelow_of_rows A' N M hA'
    intro r hr e he
    exact hcols e.1 (rowEntries_subset A r ((hpA r hr).mem_iff.2 he)).1
  rw [final_C_eq_product A B N M size hA hcols hB hsize,
    final_C_eq_product A' B' N M size hA' hcols' hB' hsize]
  unfold productCSR
  congr 1
  apply List.map_congr_left
  intro r hr
  have hr' : r < N := List.mem_range.1 hr
  unfold resultRow
  apply row_elements_perm
  exact accumEntries_perm B B' M _ _
    (fun ka hka => hcols ka.1 (rowEntries_subset A r hka).1) (hpA r hr') hpB

/-- C17 on `[[1, 2], [0, 3]]` times itself, with row 0 of both factors stored in reverse
order on one side, three workers. -/
theorem row_order_irrelevant_witness :
    WellFormed specA 2 ∧ WellFormed swappedA 2 ∧ ColsBelow specA 2 ∧
    WellFormed specA 2 ∧ WellFormed swappedA 2 ∧ 1 ≤ 3 ∧
    (∀ r, r < 2 → List.Perm (rowEntries specA r) (rowEntries swappedA r)) ∧
    (∀ k, k < 2 → List.Perm (rowEntries specA k) (rowEntries swappedA k)) ∧
    final_C specA specA 2 3 = final_C swappedA swappedA 2 3 :=
  ⟨by decide, by decide, by decide, by decide, by decide, by decide, by decide, by decide,
    row_order_irrelevant specA swappedA specA swappedA 2 2 3 (by decide) (by decide)
      (by decide) (by decide) (by decide) (by decide) (by decide) (by decide)⟩

/-- C20. The flattened row does not depend on the iteration order of the accumulator: if
for every row `i < n` two enumerations list the same pairs in some order, then filtering by
`|value| > 1e-12` and sorting yields the same list for each row, and the flattening loop
produces the same local result (values, column indices, row pointer); the merged result is
assembled from the local results alone. -/
theorem flatten_order_independent (sparse sparse' : Nat → List (Int × ℚ)) (n : Nat)
    (h : ∀ i, i < n → List.Perm (sparse i) (sparse' i)) :
    (∀ i, i < n →
      ((sparse i).filter (fun elem => decide (eps < |elem.2|))).insertionSort pairLe =
        ((sparse' i).filter (fun elem => decide (eps < |elem.2|))).insertionSort pairLe) ∧
    (List.range n).foldl (flattenStep sparse) { values := [], colidx := [], rowptr := [0] } =
      (List.range n).foldl (flattenStep sparse') { values := [], colidx := [], rowptr := [0] } := by
  have hrow : ∀ i, i < n → row_elements (sparse i) = row_elements (sparse' i) :=
    fun i hi => row_elements_perm (h i hi)
  refine ⟨hrow, ?_⟩
  apply List.foldl_ext
  intro st i hi
  unfold flattenStep
  rw [hrow i (List.mem_range.1 hi)]

/-- C20 on two enumerations of the mapping `{0 ↦ 1, 1 ↦ 2}` for each of two rows. -/
theorem flatten_order_independent_witness :
    (∀ i, i < 2 → List.Perm ((fun _ => [((0 : Int), (1 : ℚ)), (1, 2)]) i)
      ((fun _ => [((1 : Int), (2 : ℚ)), (0, 1)]) i)) ∧
    ((∀ i, i < 2 →
      (((fun _ => [((0 : Int), (1 : ℚ)), (1, 2)]) i).filter
          (fun elem => decide (eps < |elem.2|))).insertionSort pairLe =
        (((fun _ => [((1 : Int), (2 : ℚ)), (0, 1)]) i).filter
          (fun elem => decide (eps < |elem.2|))).insertionSort pairLe) ∧
    (List.range 2).foldl (flattenStep (fun _ => [((0 : Int), (1 : ℚ)), (1, 2)]))
        { values := [], colidx := [], rowptr := [0] } =
      (List.range 2).foldl (flattenStep (fun _ => [((1 : Int), (2 : ℚ)), (0, 1)]))
        { values := [], colidx := [], rowptr := [0] }) :=
  ⟨fun _ _ => List.Perm.swap _ _ _,
    flatten_order_independent (fun _ => [((0 : Int), (1 : ℚ)), (1, 2)])
      (fun _ => [((1 : Int), (2 : ℚ)), (0, 1)]) 2 (fun _ _ => List.Perm.swap _ _ _)⟩

/-! ## Contiguous and complete slicing of the nonzeros of A -/

theorem sendcount_sum (A : CSR) (N size : Nat) (hA : WellFormed A N) (hsize : 1 ≤ size)
    (k : Nat) (hk : k ≤ size) :
    ∑ p ∈ Finset.range k, sendcount A.rowptr N size p = A.rowptr.getD (rowoffset N size k) 0 := by
  induction k with
  | zero => rw [Finset.sum_range_zero, rowoffset, hA.2.1]
  | succ k ih =>
    have hle := rowoffset_add_rowcount_le N size hsize (show k < size from hk)
    have hm := hA.rowptr_mono (Nat.le_add_right (rowoffset N size k) (rowcount N size k)) hle
    rw [Finset.sum_range_succ, ih (by omega), sendcount_eq, rowoffset]
    omega

theorem scatter_slices {α : Type} (L : List α) (A : CSR) (N size : Nat) (hA : WellFormed A N)
    (hsize : 1 ≤ size) (k : Nat) (hk : k ≤ size) :
    (List.range k).flatMap
        (scatterv L (sendcount A.rowptr N size) (offset A.rowptr N size)) =
      L.take (A.rowptr.getD (rowoffset N size k) 0) := by
  induction k with
  | zero => rw [rowoffset, hA.2.1]; rfl
  | succ k ih =>
    have hle := rowoffset_add_rowcount_le N size hsize (show k < size from hk)
    have hm := hA.rowptr_mono (Nat.le_add_right (rowoffset N size k) (rowcount N size k)) hle
    rw [range_flatMap_succ, ih (by omega), rowoffset]
    unfold scatterv
    rw [sendcount_eq, offset_eq]
    by_cases hpos : 0 < rowcount N size k
    · rw [if_pos hpos]
      have e : A.rowptr.getD (rowoffset N size k + rowcount N size k) 0 =
          A.rowptr.getD (rowoffset N size k) 0 +
            (A.rowptr.getD (rowoffset N size k + rowcount N size k) 0 -
              A.rowptr.getD (rowoffset N size k) 0) := by omega
      conv_rhs => rw [e, List.take_add]
    · have h0 : rowcount N size k = 0 := by omega
      simp [h0]

theorem rowcount_zero_pos (N size : Nat) (hsize : 1 ≤ size) (hN : 0 < N) :
    0 < rowcount N size 0 := by
  unfold rowcount rowsperproc rem
  by_cases h : N < size
  · rw [Nat.mod_eq_of_lt h, if_pos hN]
    exact Nat.lt_of_lt_of_le Nat.one_pos (Nat.le_add_left 1 _)
  · have : 0 < N / size := Nat.div_pos (by omega) (by omega)
    omega

/-- C19. The nonzeros of `A` are sliced contiguously and completely: for every well-formed
`A` and worker count `size ≥ 1`, two consecutive workers that both have rows satisfy
`offset (p + 1) = offset p + sendcount p`; `offset 0 = 0` whenever `N > 0`; the send counts
sum to `A_rowptr[N]`; and the slices shipped to workers `0 .. size - 1`, put one after the
other, are exactly the value array and the column array of `A`, so every stored entry goes
to exactly one worker. -/
theorem nonzero_slices (A : CSR) (N size : Nat) (hA : WellFormed A N) (hsize : 1 ≤ size) :
    (∀ p, p + 1 < size → 0 < rowcount N size p → 0 < rowcount N size (p + 1) →
      offset A.rowptr N size (p + 1) =
        offset A.rowptr N size p + sendcount A.rowptr N size p) ∧
    (0 < N → offset A.rowptr N size 0 = 0) ∧
    ∑ p ∈ Finset.range size, sendcount A.rowptr N size p = A.rowptr.getD N 0 ∧
    (List.range size).flatMap (local_A_values A N size) = A.values ∧
    (List.range size).flatMap (local_A_colidx A N size) = A.colidx := by
  have hlast : A.rowptr.getD (rowoffset N size size) 0 = A.colidx.length := by
    rw [rowoffset_size N size hsize]; exact hA.2.2.2.1
  refine ⟨?_, ?_, ?_, ?_, ?_⟩
  · intro p hp h1 h2
    have hle := rowoffset_add_rowcount_le N size hsize (show p < size by omega)
    have hm := hA.rowptr_mono (Nat.le_add_right (rowoffset N size p) (rowcount N size p)) hle
    rw [offset_eq, offset_eq, sendcount_eq, if_pos h1, if_pos h2, rowoffset]
    omega
  · intro hN
    rw [offset_eq, if_pos (rowcount_zero_pos N size hsize hN), rowoffset]
    exact hA.2.1
  · rw [sendcount_sum A N size hA hsize size (le_refl _), rowoffset_size N size hsize]
  · have := scatter_slices A.values A N size hA hsize size (le_refl _)
    rw [hlast] at this
    rw [← List.take_of_length_le (show A.values.length ≤ A.colidx.length from
      le_of_eq hA.2.2.2.2), ← this]
    rfl
  · have := scatter_slices A.colidx A N size hA hsize size (le_refl _)
    rw [hlast] at this
    rw [← List.take_of_length_le (le_refl A.colidx.length), ← this]
    rfl

/-- C19 on `unsortedA` with three workers. -/
theorem nonzero_slices_witness :
    WellFormed unsortedA 4 ∧ 1 ≤ 3 ∧
    ((∀ p, p + 1 < 3 → 0 < rowcount 4 3 p → 0 < rowcount 4 3 (p + 1) →
      offset unsortedA.rowptr 4 3 (p + 1) =
        offset unsortedA.rowptr 4 3 p + sendcount unsortedA.rowptr 4 3 p) ∧
    (0 < 4 → offset unsortedA.rowptr 4 3 0 = 0) ∧
    ∑ p ∈ Finset.range 3, sendcount unsortedA.rowptr 4 3 p = unsortedA.rowptr.getD 4 0 ∧
    (List.range 3).flatMap (local_A_values unsortedA 4 3) = unsortedA.values ∧
    (List.range 3).flatMap (local_A_colidx unsortedA 4 3) = unsortedA.colidx) :=
  ⟨by decide, by decide, nonzero_slices unsortedA 4 3 (by decide) (by decide)⟩

/-! ## Index safety -/

/-- An index inside a slice that fits is below the length. -/
theorem lt_of_slice {s e len j : Nat} (hb : s + (e - s) ≤ len) (h1 : s ≤ j) (h2 : j < e) :
    j < len := by omega

/-- C18. Index safety: for every well-formed input (`A` with `N` rows and column indices
in `[0, M)`, `B` with `M` rows) and worker count `size ≥ 1`, every indexed read is in
bounds: `A_rowptr[end_row]` in the partitioner; for every local row `i` of every worker the
read `local_A_rowptr[i + 1]`, every `j` of the local slice within the received column and
value arrays, the non-negative indices `a_col` and `a_col + 1` within `B_rowptr`, and every
`k` of the slice `[b_start, b_end)` within the arrays of `B`; and in the output loop
`final_C_rowptr[i + 1]` and every `j` of its slice within the merged arrays, for `i < N`. -/
theorem index_safety (A B : CSR) (N M size : Nat) (hA : WellFormed A N) (hcols : ColsBelow A M)
    (hB : WellFormed B M) (hsize : 1 ≤ size) :
    (∀ p, p < size → rowoffset N size p + rowcount N size p < A.rowptr.length) ∧
    (∀ p i, p < size → i < local_rows A N size p →
      i + 1 < (local_A_rowptr A N size p).length ∧
      ∀ j, (local_A_rowptr A N size p).getD i 0 ≤ j →
        j < (local_A_rowptr A N size p).getD (i + 1) 0 →
        j < (local_A_colidx A N size p).length ∧
        j < (local_A_values A N size p).length ∧
        0 ≤ (local_A_colidx A N size p).getD j 0 ∧
        ((local_A_colidx A N size p).getD j 0).toNat < B.rowptr.length ∧
        ((local_A_colidx A N size p).getD j 0 + 1).toNat < B.rowptr.length ∧
        ∀ k, B.rowptr.getD ((local_A_colidx A N size p).getD j 0).toNat 0 ≤ k →
          k < B.rowptr.getD ((local_A_colidx A N size p).getD j 0 + 1).toNat 0 →
          k < B.colidx.length ∧ k < B.values.length) ∧
    (∀ i, i < N →
      i + 1 < (final_C_rowptr A B N size).length ∧
      ∀ j, (final_C_rowptr A B N size).getD i 0 ≤ j →
        j < (final_C_rowptr A B N size).getD (i + 1) 0 →
        j < (final_C_colidx A B N size).length ∧ j < (final_C_values A B N size).length) := by
  refine ⟨?_, ?_, ?_⟩
  · intro p hp
    have hle := rowoffset_add_rowcount_le N size hsize hp
    rw [hA.1]; omega
  · intro p i hp hi
    rw [local_rows_eq A N size p hp] at hi
    have hpos : 0 < rowcount N size p := by omega
    have hlen : (local_A_rowptr A N size p).length = rowcount N size p + 1 := by
      rw [local_A_rowptr_eq A N size p hp hpos, local_rowptrs_length _ _ _ _ hpos]
    refine ⟨by omega, ?_⟩
    intro j hj1 hj2
    have hbound := local_slice_bound A N size p i hA hsize hp hi
    have hcl := local_A_colidx_length A N size p hA hsize hp
    have hvl := local_A_values_length A N size p hA hsize hp
    have hjc : j < (local_A_colidx A N size p).length := by
      rw [hcl]; exact lt_of_slice hbound hj1 hj2
    have hjv : j < (local_A_values A N size p).length := by
      rw [hvl]; exact lt_of_slice hbound hj1 hj2
    have hmem : (local_A_colidx A N size p).getD j 0 ∈ A.colidx := by
      apply local_colidx_mem A N size p
      rw [List.getD_eq_getElem?_getD, List.getElem?_eq_getElem hjc]
      exact List.getElem_mem hjc
    obtain ⟨hc0, hc1⟩ := hcols _ hmem
    have hr : ((local_A_colidx A N size p).getD j 0).toNat < M := by omega
    have e : ((local_A_colidx A N size p).getD j 0 + 1).toNat =
        ((local_A_colidx A N size p).getD j 0).toNat + 1 := by omega
    have hrb := hB.row_bound hr
    refine ⟨hjc, hjv, hc0, by rw [hB.1]; omega, by rw [hB.1]; omega, ?_⟩
    intro k hk1 hk2
    rw [e] at hk2
    exact ⟨lt_of_slice hrb hk1 hk2, by rw [hB.2.2.2.2]; exact lt_of_slice hrb hk1 hk2⟩
  · intro i hi
    have hwf := final_C_wellFormed A B N M size hA hcols hB hsize
    have hl : (final_C_rowptr A B N size).length = N + 1 := hwf.1
    have hrb : (final_C_rowptr A B N size).getD i 0 +
        ((final_C_rowptr A B N size).getD (i + 1) 0 - (final_C_rowptr A B N size).getD i 0) ≤
        (final_C_colidx A B N size).length := hwf.row_bound hi
    have hvl : (final_C_values A B N size).length = (final_C_colidx A B N size).length :=
      hwf.2.2.2.2
    refine ⟨by omega, ?_⟩
    intro j hj1 hj2
    exact ⟨lt_of_slice hrb hj1 hj2, by rw [hvl]; exact lt_of_slice hrb hj1 hj2⟩

/-- C18 on `unsortedA`, `unsortedB` with three workers. -/
theorem index_safety_witness :
    WellFormed unsortedA 4 ∧ ColsBelow unsortedA 3 ∧ WellFormed unsortedB 3 ∧ 1 ≤ 3 ∧
    ((∀ p, p < 3 → rowoffset 4 3 p + rowcount 4 3 p < unsortedA.rowptr.length) ∧
    (∀ p i, p < 3 → i < local_rows unsortedA 4 3 p →
      i + 1 < (local_A_rowptr unsortedA 4 3 p).length ∧
      ∀ j, (local_A_rowptr unsortedA 4 3 p).getD i 0 ≤ j →
        j < (local_A_rowptr unsortedA 4 3 p).getD (i + 1) 0 →
        j < (local_A_colidx unsortedA 4 3 p).length ∧
        j < (local_A_values unsortedA 4 3 p).length ∧
        0 ≤ (local_A_colidx unsortedA 4 3 p).getD j 0 ∧
        ((local_A_colidx unsortedA 4 3 p).getD j 0).toNat < unsortedB.rowptr.length ∧
        ((local_A_colidx unsortedA 4 3 p).getD j 0 + 1).toNat < unsortedB.rowptr.length ∧
        ∀ k, unsortedB.rowptr.getD ((local_A_colidx unsortedA 4 3 p).getD j 0).toNat 0 ≤ k →
          k < unsortedB.rowptr.getD ((local_A_colidx unsortedA 4 3 p).getD j 0 + 1).toNat 0 →
          k < unsortedB.colidx.length ∧ k < unsortedB.values.length) ∧
    (∀ i, i < 4 →
      i + 1 < (final_C_rowptr unsortedA unsortedB 4 3).length ∧
      ∀ j, (final_C_rowptr unsortedA unsortedB 4 3).getD i 0 ≤ j →
        j < (final_C_rowptr unsortedA unsortedB 4 3).getD (i + 1) 0 →
        j < (final_C_colidx unsortedA unsortedB 4 3).length ∧
        j < (final_C_values unsortedA unsortedB 4 3).length)) :=
  ⟨by decide, by decide, by decide, by decide,
    index_safety unsortedA unsortedB 4 3 3 (by decide) (by decide) (by decide) (by decide)⟩

end SparseMatMul
